import Mathlib

/-!
Verification of the completion-aggregation and AI-action-reconciliation
engine of a project/task tracker.  The data model and every operation below
are shallow embeddings of the repository's storage layer
(`buildTaskTree`, `deleteTask`, `recalculateProjectCompletion`,
`recalculateParentTaskCompletion`) and of the AI action-batch interpreter
in the route handler.  The persistence engine is modelled as in-memory
lists of records; `db.update ... where eq id` becomes a map over the list,
`db.select ... where eq id` with `result[0]` becomes `List.find?`.
JavaScript truthiness (`||`, `if (x)`) on strings and numbers is modelled
explicitly wherever the source relies on it.
-/

/-- A row of the `tasks` table (fields used by the core engine). -/
structure TaskRow where
  id : String
  projectId : String
  parentTaskId : Option String
  name : String
  description : Option String
  percentComplete : Int
  isCompleted : Bool
  status : String
  roadblocks : Option String
  sortOrder : Int
deriving Repr, DecidableEq

/-- A row of the `projects` table (fields used by the core engine). -/
structure Project where
  id : String
  name : String
  description : Option String
  categoryId : Option String
  status : String
  percentComplete : Int
  roadblocks : Option String
deriving Repr, DecidableEq

/-- A row of the `categories` table. -/
structure Category where
  id : String
  name : String
  color : String
deriving Repr, DecidableEq

/-- The record store.  `projWrites` is a log of the unconditional
`db.update(projects).set({percentComplete})` calls issued by
`recalculateProjectCompletion`; `nextId` feeds generated row ids. -/
structure Store where
  projects : List Project
  tasks : List TaskRow
  categories : List Category
  projWrites : List (String × Int)
  nextId : Nat
deriving Repr, DecidableEq

/-- `Math.round(num / den)` for `den > 0`: round half toward positive
infinity, i.e. `⌊num/den + 1/2⌋`. -/
def jsRound (num den : Int) : Int := Int.fdiv (2 * num + den) (2 * den)

/-- JavaScript truthiness of a nullable string: `null` and `""` are falsy. -/
def strTruthy : Option String → Bool
  | none => false
  | some s => !(s == "")

/-- JavaScript `a || b` on a nullable string `a`: keep `a` unless falsy. -/
def jsOrStr (a b : Option String) : Option String :=
  if strTruthy a then a else b

/-- `db.select().from(tasks).where(eq(tasks.id, id))` with `result[0]`. -/
def getTaskRow (tasks : List TaskRow) (id : String) : Option TaskRow :=
  tasks.find? (fun t => t.id == id)

/-- `db.select().from(projects).where(eq(projects.id, id))` with `result[0]`. -/
def getProjectRow (projects : List Project) (id : String) : Option Project :=
  projects.find? (fun p => p.id == id)

/-- `recalculateProjectCompletion` (storage layer): average the project's
root tasks (`!t.parentTaskId`, a JS falsy test) into the project row,
writing 0 when there are no root tasks; the write is unconditional. -/
def recalculateProjectCompletion (s : Store) (projectId : String) : Store :=
  let projectTasks := s.tasks.filter (fun t => t.projectId == projectId)
  let rootTasks := projectTasks.filter (fun t => !(strTruthy t.parentTaskId))
  if rootTasks.length = 0 then
    { s with
      projects := s.projects.map (fun p =>
        if p.id == projectId then { p with percentComplete := 0 } else p),
      projWrites := s.projWrites ++ [(projectId, 0)] }
  else
    let totalPercent := rootTasks.foldl (fun sum t => sum + t.percentComplete) 0
    let avgPercent := jsRound totalPercent rootTasks.length
    { s with
      projects := s.projects.map (fun p =>
        if p.id == projectId then { p with percentComplete := avgPercent } else p),
      projWrites := s.projWrites ++ [(projectId, avgPercent)] }

/-- The single parent-task update written by `recalculateParentTaskCompletion`. -/
def writeParentRecalc (tasks : List TaskRow) (id : String) (pc : Int) (ic : Bool)
    (st : String) : List TaskRow :=
  tasks.map (fun t =>
    if t.id == id then { t with percentComplete := pc, isCompleted := ic, status := st } else t)

/-- `recalculateParentTaskCompletion` (storage layer), with explicit fuel for
the upward recursion `if (parentTask.parentTaskId) recurse(parent)`.  The
recursion guard is the JS truthy test, so an empty-string parent id stops it. -/
def recalcParentFuel : Nat → Store → String → Store
  | 0, s, _ => s
  | fuel + 1, s, parentTaskId =>
    match getTaskRow s.tasks parentTaskId with
    | none => s
    | some parentTask =>
      let children := s.tasks.filter (fun t => t.parentTaskId == some parentTaskId)
      if children.length = 0 then s
      else
        let totalPercent := children.foldl (fun sum t => sum + t.percentComplete) 0
        let avgPercent := jsRound totalPercent children.length
        let isCompleted := avgPercent == 100
        let newStatus :=
          if isCompleted then "completed"
          else if avgPercent > 0 then "in-progress" else parentTask.status
        let s' := { s with
          tasks := writeParentRecalc s.tasks parentTaskId avgPercent isCompleted newStatus }
        match parentTask.parentTaskId with
        | none => s'
        | some p => if p == "" then s' else recalcParentFuel fuel s' p

/-- `recalculateParentTaskCompletion` at its canonical fuel: one unit per
task plus one, enough for any terminating ancestor chain. -/
def recalculateParentTaskCompletion (s : Store) (taskId : String) : Store :=
  recalcParentFuel (s.tasks.length + 1) s taskId

/-- `deleteTask` (storage layer) with explicit fuel: fetch direct children,
recursively delete each, then delete the row itself (post-order). -/
def deleteTaskFuel : Nat → Store → String → Store
  | 0, s, _ => s
  | fuel + 1, s, id =>
    let childTasks := s.tasks.filter (fun t => t.parentTaskId == some id)
    let s₁ := childTasks.foldl (fun acc c => deleteTaskFuel fuel acc c.id) s
    { s₁ with tasks := s₁.tasks.filter (fun t => !(t.id == id)) }

/-- `deleteTask` at its canonical fuel. -/
def deleteTask (s : Store) (id : String) : Store :=
  deleteTaskFuel (s.tasks.length + 1) s id

/-- The sibling comparator `(a, b) => a.sortOrder - b.sortOrder` (ascending;
JavaScript's `Array.prototype.sort` is stable, modelled with a stable
structural insertion sort over this relation). -/
def taskLE (a b : TaskRow) : Prop := a.sortOrder ≤ b.sortOrder

instance : DecidableRel taskLE :=
  fun a b => inferInstanceAs (Decidable (a.sortOrder ≤ b.sortOrder))

instance : IsTotal TaskRow taskLE := ⟨fun a b => le_total a.sortOrder b.sortOrder⟩

instance : IsTrans TaskRow taskLE := ⟨fun _ _ _ hab hbc => le_trans hab hbc⟩

/-- A node of the task forest returned by `buildTaskTree`: the task record
together with its `children` field. -/
inductive TaskTree where
  | node (task : TaskRow) (children : List TaskTree)

/-- The task record carried by a forest node. -/
def TaskTree.task : TaskTree → TaskRow
  | .node t _ => t

/-- The `children` field of a forest node. -/
def TaskTree.children : TaskTree → List TaskTree
  | .node _ c => c

/-- `buildTaskTree` (storage layer) with explicit fuel: filter the tasks
whose `parentTaskId` is exactly `parentId`, sort them stably by
`sortOrder`, and build each node's children recursively from its id. -/
def buildTaskTreeFuel : Nat → List TaskRow → Option String → List TaskTree
  | 0, _, _ => []
  | fuel + 1, allTasks, parentId =>
    (List.insertionSort taskLE (allTasks.filter (fun t => t.parentTaskId == parentId))).map
      (fun task => TaskTree.node task (buildTaskTreeFuel fuel allTasks (some task.id)))

/-- `buildTaskTree` at its canonical fuel. -/
def buildTaskTree (allTasks : List TaskRow) (parentId : Option String) : List TaskTree :=
  buildTaskTreeFuel (allTasks.length + 1) allTasks parentId

/-- An action of the AI batch, as destructured by the route handler.
`none` in an optional field models an absent (`undefined`) JSON key; the
`roadblocks` payload itself may be an explicit `null`, hence the nested
option. -/
inductive AIAction where
  | create_project (name : String) (description : Option String) (categoryId : Option String)
  | create_task (projectId : Option String) (parentTaskId : Option String)
      (name : String) (description : Option String)
  | update_task (taskId : String) (percentComplete : Option Int)
      (isCompleted : Option Bool) (roadblocks : Option (Option String))
  | update_project (projectId : String) (percentComplete : Option Int)
      (roadblocks : Option (Option String))
deriving Repr, DecidableEq

/-- The interpreter state threaded through one batch: the store, the single
mutable `newlyCreatedProjectId` slot, and the `executedActions` log. -/
structure BatchState where
  store : Store
  newlyCreatedProjectId : Option String
  executedActions : List String
deriving Repr, DecidableEq

/-- A generated row id (the database's id default). -/
def genId (n : Nat) : String := "gen-" ++ toString n

/-- Category resolution for `create_project`:
`action.categoryId || categories[0]?.id || null`, then, when that is truthy
but matches no category id, a case-insensitive name match with the same
fallback chain. -/
def resolveCategoryId (categories : List Category) (categoryId : Option String) :
    Option String :=
  let r0 := jsOrStr categoryId (jsOrStr (categories.head?.map (fun c => c.id)) none)
  if strTruthy r0 && (categories.find? (fun c => some c.id == r0)).isNone then
    match r0 with
    | some cid =>
      let matchedCategory := categories.find? (fun c => c.name.toLower == cid.toLower)
      jsOrStr (matchedCategory.map (fun c => c.id))
        (jsOrStr (categories.head?.map (fun c => c.id)) none)
    | none => r0
  else r0

/-- The `updates` record assembled by the `update_task` branch before it is
handed to `storage.updateTask`; absent keys are `none`. -/
structure TaskUpdates where
  percentComplete : Option Int := none
  isCompleted : Option Bool := none
  status : Option String := none
  roadblocks : Option (Option String) := none
deriving Repr, DecidableEq

/-- JavaScript `a || b` on a possibly-absent number: `undefined` and `0`
are falsy. -/
def jsOrNum (a : Option Int) (b : Int) : Int :=
  match a with
  | some v => if v == 0 then b else v
  | none => b

/-- The `update_task` branch's computation of `updates`: a supplied
`percentComplete` derives `isCompleted` and `status`; a supplied
`isCompleted` then overrides, with
`updates.percentComplete = isCompleted ? 100 : (updates.percentComplete || existingTask.percentComplete)`;
a supplied `roadblocks` is written verbatim. -/
def computeTaskUpdates (percentComplete : Option Int) (isCompleted : Option Bool)
    (roadblocks : Option (Option String)) (existingTask : TaskRow) : TaskUpdates :=
  let u0 : TaskUpdates := {}
  let u1 := match percentComplete with
    | some pc =>
      { u0 with
        percentComplete := some pc,
        isCompleted := some (pc == 100),
        status := some (if pc == 100 then "completed"
          else if pc > 0 then "in-progress" else "pending") }
    | none => u0
  let u2 := match isCompleted with
    | some ic =>
      { u1 with
        isCompleted := some ic,
        percentComplete :=
          some (if ic then (100 : Int) else jsOrNum u1.percentComplete existingTask.percentComplete) }
    | none => u1
  match roadblocks with
  | some rb => { u2 with roadblocks := some rb }
  | none => u2

/-- `db.update(tasks).set(updates)` on one row: only the keys present in
`updates` are written (an empty `updates` is the identity). -/
def applyTaskUpdates (t : TaskRow) (u : TaskUpdates) : TaskRow :=
  { t with
    percentComplete := u.percentComplete.getD t.percentComplete,
    isCompleted := u.isCompleted.getD t.isCompleted,
    status := u.status.getD t.status,
    roadblocks := match u.roadblocks with | some rb => rb | none => t.roadblocks }

/-- One iteration of the route handler's `for (const action of actions)`
loop.  Each branch mirrors the source: placeholder resolution and skip for
`create_task`, the `updates` assembly and aggregator cascade for
`update_task`, the cascade-free direct write for `update_project`.  A
`create_task` skip and an `update_task`/`update_project` on a missing id
leave the state untouched (the source logs and continues). -/
def execAction (st : BatchState) (action : AIAction) : BatchState :=
  match action with
  | .create_project name description categoryId =>
    let resolvedCategoryId := resolveCategoryId st.store.categories categoryId
    let project : Project := {
      id := genId st.store.nextId, name := name,
      description := jsOrStr description none,
      categoryId := resolvedCategoryId, status := "active", percentComplete := 0,
      roadblocks := none }
    { store := { st.store with
        projects := st.store.projects ++ [project], nextId := st.store.nextId + 1 },
      newlyCreatedProjectId := some project.id,
      executedActions :=
        st.executedActions ++ ["Created project \"" ++ project.name ++ "\""] }
  | .create_task projectId0 parentTaskId name description =>
    let projectId :=
      if projectId0 == some "NEW_PROJECT" && strTruthy st.newlyCreatedProjectId
      then st.newlyCreatedProjectId else projectId0
    if !(strTruthy projectId) || projectId == some "NEW_PROJECT" then st
    else
      match projectId with
      | none => st
      | some pid =>
        let task : TaskRow := {
          id := genId st.store.nextId, projectId := pid,
          parentTaskId := jsOrStr parentTaskId none,
          name := name, description := jsOrStr description none,
          percentComplete := 0, isCompleted := false, status := "pending",
          roadblocks := none, sortOrder := 0 }
        let s1 := { st.store with
          tasks := st.store.tasks ++ [task], nextId := st.store.nextId + 1 }
        let s2 := match task.parentTaskId with
          | some ptid => recalculateParentTaskCompletion s1 ptid
          | none => s1
        let s3 := recalculateProjectCompletion s2 task.projectId
        { store := s3, newlyCreatedProjectId := st.newlyCreatedProjectId,
          executedActions :=
            st.executedActions ++ ["Created task \"" ++ task.name ++ "\""] }
  | .update_task taskId percentComplete isCompleted roadblocks =>
    match getTaskRow st.store.tasks taskId with
    | none => st
    | some existingTask =>
      let u := computeTaskUpdates percentComplete isCompleted roadblocks existingTask
      let task := applyTaskUpdates existingTask u
      let s1 := { st.store with
        tasks := st.store.tasks.map (fun t =>
          if t.id == taskId then applyTaskUpdates t u else t) }
      let s2 := if strTruthy task.parentTaskId then
          match task.parentTaskId with
          | some ptid => recalculateParentTaskCompletion s1 ptid
          | none => s1
        else s1
      let s3 := recalculateProjectCompletion s2 task.projectId
      { store := s3, newlyCreatedProjectId := st.newlyCreatedProjectId,
        executedActions :=
          st.executedActions ++ ["Updated task \"" ++ existingTask.name ++ "\""] }
  | .update_project projectId percentComplete roadblocks =>
    match getProjectRow st.store.projects projectId with
    | none => st
    | some existingProject =>
      let s1 := { st.store with
        projects := st.store.projects.map (fun p =>
          if p.id == projectId then
            { p with
              percentComplete := percentComplete.getD p.percentComplete,
              roadblocks := match roadblocks with | some rb => rb | none => p.roadblocks }
          else p) }
      { store := s1, newlyCreatedProjectId := st.newlyCreatedProjectId,
        executedActions :=
          st.executedActions ++ ["Updated project \"" ++ existingProject.name ++ "\""] }

/-- The whole batch loop: actions applied strictly in array order, each
step independent of the ones that follow. -/
def execBatch (st : BatchState) (actions : List AIAction) : BatchState :=
  actions.foldl execAction st

/-- `nd` is a node somewhere in the forest `f`: either one of its roots or
a node of some root's subtree. -/
inductive InForest : TaskTree → List TaskTree → Prop where
  | here {nd : TaskTree} {f : List TaskTree} : nd ∈ f → InForest nd f
  | deeper {nd r : TaskTree} {f : List TaskTree} :
      r ∈ f → InForest nd r.children → InForest nd f

/-- The reference a downward chain continues from: the id of its last task,
or the starting reference for the empty chain. -/
def chainRef (pid : Option String) : List TaskRow → Option String
  | [] => pid
  | t :: c => chainRef (some t.id) c

/-- A downward parent chain in `ts` starting under the reference `pid`:
each task is a stored row whose `parentTaskId` is the reference produced by
the tasks before it. -/
def DownChain (ts : List TaskRow) : Option String → List TaskRow → Prop
  | _, [] => True
  | pid, t :: c => t ∈ ts ∧ t.parentTaskId = pid ∧ DownChain ts (some t.id) c

/-- The upward parent walk from id `tid` terminates within `f` steps
(reaching a missing row or a row with no parent). -/
def upFuel : Nat → List TaskRow → String → Bool
  | 0, _, _ => false
  | f + 1, ts, tid =>
    match getTaskRow ts tid with
    | none => true
    | some t =>
      match t.parentTaskId with
      | none => true
      | some p => upFuel f ts p

/-- The upward walk as followed by `recalculateParentTaskCompletion`'s
recursion guard (an empty-string parent id also stops it). -/
def recalcUpOk : Nat → List TaskRow → String → Bool
  | 0, _, _ => false
  | f + 1, ts, tid =>
    match getTaskRow ts tid with
    | none => true
    | some t =>
      match t.parentTaskId with
      | none => true
      | some p => p == "" || recalcUpOk f ts p

/-- The ids visited by `recalculateParentTaskCompletion`'s upward walk from
`tid`, within `f` steps. -/
def upIds : Nat → List TaskRow → String → List String
  | 0, _, tid => [tid]
  | f + 1, ts, tid =>
    tid :: (match getTaskRow ts tid with
      | none => []
      | some t =>
        match t.parentTaskId with
        | none => []
        | some p => if p == "" then [] else upIds f ts p)

/-- `tid` is not revisited by the recalc walk that continues above the task
`t` (used to state that the recursion does not touch `t` again). -/
def notSelfUp (ts : List TaskRow) (t : TaskRow) (tid : String) : Bool :=
  match t.parentTaskId with
  | none => true
  | some p => p == "" || !((upIds (ts.length + 1) ts p).contains tid)

/-- `t` belongs to the deletion subtree of id `id` (searched to depth `f`):
either `t`'s own id is `id`, or `t` is in the subtree of a direct child. -/
def descB (ts : List TaskRow) : Nat → String → TaskRow → Bool
  | 0, id, t => t.id == id
  | f + 1, id, t =>
    t.id == id || ts.any (fun c => c.parentTaskId == some id && descB ts f c.id t)


/-- The fields of a task row that every aggregation write leaves untouched
(row identity, tree position, project membership, sibling order). -/
def taskKey (t : TaskRow) : String × Option String × String × Int :=
  (t.id, t.parentTaskId, t.projectId, t.sortOrder)

/-- A compact task-row builder for concrete test fixtures. -/
def mkTask (id pid : String) (par : Option String) (pc : Int) (st : String)
    (ord : Int) : TaskRow :=
  { id := id, projectId := pid, parentTaskId := par, name := id,
    description := none, percentComplete := pc, isCompleted := pc == 100,
    status := st, roadblocks := none, sortOrder := ord }

/-- Fixture project. -/
def fxProject : Project :=
  { id := "p1", name := "Alpha", description := none, categoryId := none,
    status := "active", percentComplete := 37, roadblocks := none }

/-- Fixture: two roots and one subtask. -/
def fxTasks : List TaskRow :=
  [mkTask "a" "p1" none 100 "completed" 0,
   mkTask "b" "p1" none 50 "in-progress" 1,
   mkTask "c" "p1" (some "b") 50 "in-progress" 0]

/-- Fixture store for the aggregator claims. -/
def fxStore : Store :=
  { projects := [fxProject], tasks := fxTasks, categories := [],
    projWrites := [], nextId := 0 }

/-- Fixture: a grandparent → parent → two-leaves chain. -/
def fxChain : List TaskRow :=
  [mkTask "g" "p1" none 0 "pending" 0,
   mkTask "m" "p1" (some "g") 0 "pending" 0,
   mkTask "x" "p1" (some "m") 100 "completed" 0,
   mkTask "y" "p1" (some "m") 50 "in-progress" 1]

/-- Fixture store around `fxChain`. -/
def fxChainStore : Store :=
  { projects := [fxProject], tasks := fxChain, categories := [],
    projWrites := [], nextId := 0 }

/-- Fixture: one task with a custom (non-derived) status. -/
def fxBlockedStore : Store :=
  { projects := [fxProject],
    tasks := [mkTask "t0" "p1" none 10 "blocked" 0],
    categories := [], projWrites := [], nextId := 0 }

/-- Fixture interpreter state around `fxBlockedStore`. -/
def fxBatchState : BatchState :=
  { store := fxBlockedStore, newlyCreatedProjectId := none, executedActions := [] }

/-- Fixture: an unsorted forest input with two roots, two children and an
orphan whose parent id matches nothing. -/
def fxForestTasks : List TaskRow :=
  [mkTask "r2" "p1" none 0 "pending" 1,
   mkTask "r1" "p1" none 0 "pending" 0,
   mkTask "c1" "p1" (some "r1") 20 "in-progress" 1,
   mkTask "c2" "p1" (some "r1") 40 "in-progress" 0,
   mkTask "orph" "p1" (some "ghost") 0 "pending" 0]

/-- Fixture: a root with two children, each with one child of its own,
plus an unrelated second root. -/
def fxDelStore : Store :=
  { projects := [fxProject],
    tasks :=
      [mkTask "A" "p1" none 0 "pending" 0,
       mkTask "B" "p1" (some "A") 0 "pending" 0,
       mkTask "C" "p1" (some "A") 0 "pending" 1,
       mkTask "D" "p1" (some "B") 0 "pending" 0,
       mkTask "E" "p1" (some "C") 0 "pending" 0,
       mkTask "Z" "p1" none 0 "pending" 1],
    categories := [], projWrites := [], nextId := 0 }


/-- The project percentage prescribed by the specification: 0 with no root
tasks (`parentTaskId` null), else the rounded mean of the root tasks'
`percentComplete`.  Stated from the spec's words, to be compared with
`recalculateProjectCompletion`. -/
def specProjectPercent (s : Store) (pid : String) : Int :=
  let rootTasks := (s.tasks.filter (fun t => t.projectId == pid)).filter
    (fun t => t.parentTaskId == none)
  if rootTasks.length = 0 then 0
  else jsRound (rootTasks.foldl (fun sum t => sum + t.percentComplete) 0) rootTasks.length

/-- The rounded mean of the direct children of task id `tid`, as written by
`recalculateParentTaskCompletion` when there is at least one child. -/
def childAvg (s : Store) (tid : String) : Int :=
  let children := s.tasks.filter (fun t => t.parentTaskId == some tid)
  jsRound (children.foldl (fun sum t => sum + t.percentComplete) 0) children.length

/-- The store after the single write `recalculateParentTaskCompletion`
performs on task `tid` (average, completion flag and status), with
`prevStatus` the task's previously stored status. -/
def parentRecalcWrite (s : Store) (tid : String) (prevStatus : String) : Store :=
  let newStatus :=
    if childAvg s tid == 100 then "completed"
    else if childAvg s tid > 0 then "in-progress" else prevStatus
  { s with tasks := writeParentRecalc s.tasks tid (childAvg s tid) (childAvg s tid == 100) newStatus }


/-- Fixture forest nodes: the children of root `"r1"` sorted by sortOrder. -/
def fxNodeC1 : TaskTree := .node (mkTask "c1" "p1" (some "r1") 20 "in-progress" 1) []

/-- Fixture forest node for `"c2"`. -/
def fxNodeC2 : TaskTree := .node (mkTask "c2" "p1" (some "r1") 40 "in-progress" 0) []

/-- Fixture forest node for the root `"r1"`. -/
def fxNodeR1 : TaskTree := .node (mkTask "r1" "p1" none 0 "pending" 0) [fxNodeC2, fxNodeC1]

/-! ### General lemmas about keyed record updates -/

theorem find?_map_update {α : Type} (l : List α) (idf : α → String) (g : α → α)
    (hg : ∀ a, idf (g a) = idf a) (i : String) :
    (l.map (fun a => if idf a == i then g a else a)).find? (fun a => idf a == i) =
      (l.find? (fun a => idf a == i)).map g := by
  induction l with
  | nil => rfl
  | cons a l ih =>
    by_cases h : idf a == i
    · simp only [List.map_cons, h, if_pos rfl, List.find?_cons]
      have hga : (idf (g a) == i) = true := by rw [hg]; exact h
      simp [h, hga]
    · have h' : (idf a == i) = false := by simpa using h
      simp only [List.map_cons, h', Bool.false_eq_true, if_false, List.find?_cons, ih]

theorem find?_map_other {α : Type} (l : List α) (idf : α → String) (g : α → α)
    (hg : ∀ a, idf (g a) = idf a) (i j : String) (hij : i ≠ j) :
    (l.map (fun a => if idf a == j then g a else a)).find? (fun a => idf a == i) =
      l.find? (fun a => idf a == i) := by
  induction l with
  | nil => rfl
  | cons a l ih =>
    by_cases h : idf a == j
    · have haj : idf a = j := by simpa using h
      have hai : (idf a == i) = false := by
        simp only [beq_eq_false_iff_ne, ne_eq, haj]
        exact fun hh => hij hh.symm
      have hgai : (idf (g a) == i) = false := by rw [hg]; exact hai
      rw [List.map_cons, if_pos h, List.find?_cons_of_neg _ (by simp [hgai]),
        List.find?_cons_of_neg _ (by simp [hai]), ih]
    · have h' : (idf a == j) = false := by simpa using h
      simp only [List.map_cons, h', Bool.false_eq_true, if_false, List.find?_cons]
      cases hai : (idf a == i) with
      | true => rfl
      | false => exact ih

/-! ### Structure preservation of the aggregation writes -/

theorem writeParentRecalc_keys (ts : List TaskRow) (id : String) (pc : Int)
    (ic : Bool) (st : String) :
    (writeParentRecalc ts id pc ic st).map taskKey = ts.map taskKey := by
  unfold writeParentRecalc
  rw [List.map_map]
  refine List.map_congr_left ?_
  intro t _
  by_cases h : t.id = id <;> simp [h, taskKey]

theorem recalcProject_tasks (s : Store) (pid : String) :
    (recalculateProjectCompletion s pid).tasks = s.tasks := by
  unfold recalculateProjectCompletion
  dsimp only
  split <;> rfl

theorem recalcProject_nextId (s : Store) (pid : String) :
    (recalculateProjectCompletion s pid).nextId = s.nextId := by
  unfold recalculateProjectCompletion
  dsimp only
  split <;> rfl

theorem recalcParentFuel_shape (fuel : Nat) : ∀ (s : Store) (tid : String),
    (recalcParentFuel fuel s tid).tasks.map taskKey = s.tasks.map taskKey ∧
    (recalcParentFuel fuel s tid).projects = s.projects ∧
    (recalcParentFuel fuel s tid).projWrites = s.projWrites ∧
    (recalcParentFuel fuel s tid).nextId = s.nextId := by
  induction fuel with
  | zero => intro s tid; exact ⟨rfl, rfl, rfl, rfl⟩
  | succ fuel ih =>
    intro s tid
    rw [recalcParentFuel]
    cases hfind : getTaskRow s.tasks tid with
    | none => exact ⟨rfl, rfl, rfl, rfl⟩
    | some T =>
      dsimp only
      by_cases hc : (s.tasks.filter (fun t => t.parentTaskId == some tid)).length = 0
      · rw [if_pos hc]; exact ⟨rfl, rfl, rfl, rfl⟩
      · rw [if_neg hc]
        cases hp : T.parentTaskId with
        | none => exact ⟨writeParentRecalc_keys .., rfl, rfl, rfl⟩
        | some p =>
          dsimp only
          by_cases hpe : p = ""
          · rw [if_pos (show (p == "") = true by simp [hpe])]
            exact ⟨writeParentRecalc_keys .., rfl, rfl, rfl⟩
          · rw [if_neg (show ¬ (p == "") = true by simpa using hpe)]
            refine ⟨((ih _ p).1).trans ?_, (ih _ p).2.1, (ih _ p).2.2.1, (ih _ p).2.2.2⟩
            exact writeParentRecalc_keys ..

theorem getProjectRow_map_setPc (l : List Project) (v : Int) (i : String) :
    getProjectRow (l.map (fun p => if p.id == i then { p with percentComplete := v } else p)) i =
      (getProjectRow l i).map (fun p => { p with percentComplete := v }) :=
  find?_map_update l Project.id (fun p => { p with percentComplete := v }) (fun _ => rfl) i

/-! ### C9 and C2: aggregator failure semantics and project recomputation -/

/-- C9: `recalculateParentTaskCompletion` never raises: invoked with a
missing task id it changes no stored record, and on an existing task with
zero children it is a no-op, so any number of calls on a childless task
leaves the store — in particular that task's stored fields — unchanged. -/
theorem recalcParent_missing_or_leaf_noop (s : Store) (tid : String)
    (h : getTaskRow s.tasks tid = none ∨
      s.tasks.filter (fun t => t.parentTaskId == some tid) = []) :
    recalculateParentTaskCompletion s tid = s ∧
    ∀ n : Nat, (fun st => recalculateParentTaskCompletion st tid)^[n] s = s := by
  have h1 : recalculateParentTaskCompletion s tid = s := by
    rw [recalculateParentTaskCompletion, recalcParentFuel]
    rcases h with h | h
    · rw [h]
    · cases hfind : getTaskRow s.tasks tid with
      | none => rfl
      | some T => dsimp only; rw [h]; simp
  refine ⟨h1, fun n => ?_⟩
  induction n with
  | zero => rfl
  | succ n ih => rw [Function.iterate_succ_apply, h1, ih]

/-- Witness for C9: a nonexistent id and a two-fold call on the childless
task `"c"` of the fixture store. -/
theorem recalcParent_missing_or_leaf_noop_witness :
    recalculateParentTaskCompletion fxStore "zz" = fxStore ∧
    (fun st => recalculateParentTaskCompletion st "c")^[2] fxStore = fxStore := by
  constructor
  · exact (recalcParent_missing_or_leaf_noop fxStore "zz" (Or.inl (by decide))).1
  · exact (recalcParent_missing_or_leaf_noop fxStore "c" (Or.inr (by decide))).2 2

/-- C2: `recalculateProjectCompletion` writes 0 when the project has no
root tasks and otherwise the rounded mean of the root tasks'
`percentComplete`, and the write is persisted unconditionally (the write
log always grows by exactly this entry, equal value or not). -/
theorem recalcProject_spec (s : Store) (pid : String) (p : Project)
    (hp : getProjectRow s.projects pid = some p)
    (hwf : ∀ t ∈ s.tasks, t.parentTaskId ≠ some "") :
    getProjectRow (recalculateProjectCompletion s pid).projects pid =
      some { p with percentComplete := specProjectPercent s pid } ∧
    (recalculateProjectCompletion s pid).projWrites =
      s.projWrites ++ [(pid, specProjectPercent s pid)] := by
  have hfilters : ((s.tasks.filter (fun t => t.projectId == pid)).filter
      (fun t => !(strTruthy t.parentTaskId))) =
      ((s.tasks.filter (fun t => t.projectId == pid)).filter
      (fun t => t.parentTaskId == none)) := by
    refine List.filter_congr ?_
    intro t ht
    have ht' : t ∈ s.tasks := (List.mem_filter.mp ht).1
    cases hpar : t.parentTaskId with
    | none => simp [strTruthy]
    | some v =>
      have hv : v ≠ "" := by
        intro he
        exact hwf t ht' (by rw [hpar, he])
      simp [strTruthy, hv]
  rw [recalculateProjectCompletion, specProjectPercent]
  dsimp only
  rw [hfilters]
  by_cases hlen : ((s.tasks.filter (fun t => t.projectId == pid)).filter
      (fun t => t.parentTaskId == none)).length = 0
  · simp only [if_pos hlen]
    refine ⟨?_, by trivial⟩
    rw [getProjectRow_map_setPc, hp]
    rfl
  · simp only [if_neg hlen]
    refine ⟨?_, by trivial⟩
    rw [getProjectRow_map_setPc, hp]
    rfl

/-- Witness for C2: the fixture store's roots average to 75 and the write
log records the unconditional update. -/
theorem recalcProject_spec_witness :
    getProjectRow (recalculateProjectCompletion fxStore "p1").projects "p1" =
      some { fxProject with percentComplete := 75 } ∧
    (recalculateProjectCompletion fxStore "p1").projWrites = [("p1", 75)] := by
  have h := recalcProject_spec fxStore "p1" fxProject (by decide) (by decide)
  exact ⟨h.1, h.2⟩

/-! ### C5 and C6: placeholder resolution and batch independence -/

theorem map_projectId_of_keys {l₁ l₂ : List TaskRow}
    (h : l₁.map taskKey = l₂.map taskKey) :
    l₁.map (fun t => t.projectId) = l₂.map (fun t => t.projectId) := by
  have h1 : l₁.map (fun t => t.projectId) = (l₁.map taskKey).map (fun k => k.2.2.1) := by
    rw [List.map_map]; rfl
  have h2 : l₂.map (fun t => t.projectId) = (l₂.map taskKey).map (fun k => k.2.2.1) := by
    rw [List.map_map]; rfl
  rw [h1, h2, h]

/-- C5: the `"NEW_PROJECT"` sentinel: (1) the interpreter keeps a single
last-created-project slot — a `create_project` action overwrites it with
the id of the project it just created and every other action preserves it;
(2) when the slot is empty a sentinel `create_task` is skipped outright
(no task inserted, nothing logged); (3) when the slot holds the id of the
most recently created project, the sentinel `create_task` inserts exactly
one task carrying that project id. -/
theorem newProjectPlaceholder (st : BatchState) (pt : Option String)
    (nm : String) (d : Option String) :
    (∀ a : AIAction, (execAction st a).newlyCreatedProjectId =
      match a with
      | .create_project _ _ _ => some (genId st.store.nextId)
      | _ => st.newlyCreatedProjectId) ∧
    (st.newlyCreatedProjectId = none →
      execAction st (.create_task (some "NEW_PROJECT") pt nm d) = st) ∧
    (∀ nid, st.newlyCreatedProjectId = some nid → nid ≠ "" → nid ≠ "NEW_PROJECT" →
      (execAction st (.create_task (some "NEW_PROJECT") pt nm d)).store.tasks.map
          (fun t => t.projectId) =
        st.store.tasks.map (fun t => t.projectId) ++ [nid]) := by
  refine ⟨?_, ?_, ?_⟩
  · intro a
    cases a with
    | create_project n de c => rfl
    | create_task pj pt' n de =>
      dsimp only [execAction]
      split <;> split <;> first | rfl | (split <;> rfl)
    | update_task tid pc ic rb =>
      dsimp only [execAction]
      cases getTaskRow st.store.tasks tid <;> rfl
    | update_project pid pc rb =>
      dsimp only [execAction]
      cases getProjectRow st.store.projects pid <;> rfl
  · intro hslot
    dsimp only [execAction]
    rw [hslot]
    rfl
  · intro nid hslot hne hnp
    dsimp only [execAction]
    rw [hslot]
    have h1 : (if ((some "NEW_PROJECT" == some "NEW_PROJECT") && strTruthy (some nid)) = true
        then some nid else some "NEW_PROJECT") = some nid := by
      simp [strTruthy, hne]
    rw [h1, if_neg (by simp [strTruthy, hne, hnp])]
    dsimp only
    rw [recalcProject_tasks]
    cases hpt : jsOrStr pt none with
    | none => rw [List.map_append]; rfl
    | some ptid =>
      unfold recalculateParentTaskCompletion
      rw [map_projectId_of_keys ((recalcParentFuel_shape _ _ _).1), List.map_append]
      rfl

/-- Witness for C5: the slot after a `create_project`, the skip with an
empty slot, and the insertion with a filled slot, on the fixture state. -/
theorem newProjectPlaceholder_witness :
    (execAction fxBatchState (.create_project "Q2" none none)).newlyCreatedProjectId =
      some (genId fxBatchState.store.nextId) ∧
    execAction fxBatchState (.create_task (some "NEW_PROJECT") none "K" none) = fxBatchState ∧
    (execAction { fxBatchState with newlyCreatedProjectId := some "gen-7" }
        (.create_task (some "NEW_PROJECT") none "K" none)).store.tasks.map
        (fun t => t.projectId) =
      ({ fxBatchState with newlyCreatedProjectId := some "gen-7" } : BatchState).store.tasks.map
        (fun t => t.projectId) ++ ["gen-7"] := by
  refine ⟨?_, ?_, ?_⟩
  · exact (newProjectPlaceholder fxBatchState none "K" none).1 (.create_project "Q2" none none)
  · exact (newProjectPlaceholder fxBatchState none "K" none).2.1 rfl
  · exact (newProjectPlaceholder { fxBatchState with newlyCreatedProjectId := some "gen-7" }
      none "K" none).2.2 "gen-7" rfl (by decide) (by decide)

/-- C6: actions run strictly in array order and are independently caught:
the batch is a left fold of single actions, an `update_task` whose task id
resolves to no record is a complete no-op, and therefore a failing action
in the middle of a batch neither aborts the actions after it nor rolls
back the effects of the actions before it. -/
theorem batchOrderIndependence (st : BatchState) (as bs : List AIAction)
    (tid : String) (pc : Option Int) (ic : Option Bool) (rb : Option (Option String))
    (h : getTaskRow (execBatch st as).store.tasks tid = none) :
    (∀ (st0 : BatchState) (xs ys : List AIAction),
      execBatch st0 (xs ++ ys) = execBatch (execBatch st0 xs) ys) ∧
    execAction (execBatch st as) (.update_task tid pc ic rb) = execBatch st as ∧
    execBatch st (as ++ .update_task tid pc ic rb :: bs) =
      execBatch (execBatch st as) bs := by
  have hskip : execAction (execBatch st as) (.update_task tid pc ic rb) = execBatch st as := by
    dsimp only [execAction]
    rw [h]
  refine ⟨?_, hskip, ?_⟩
  · intro st0 xs ys
    exact List.foldl_append ..
  · rw [execBatch, List.foldl_append, List.foldl_cons]
    show execBatch (execAction (execBatch st as) (.update_task tid pc ic rb)) bs = _
    rw [hskip]

/-- Witness for C6: a three-action batch over the fixture state whose
middle action targets a nonexistent task id. -/
theorem batchOrderIndependence_witness :
    getTaskRow (execBatch fxBatchState [.create_project "Q2" none none]).store.tasks "ghost"
      = none ∧
    execBatch fxBatchState
        ([.create_project "Q2" none none] ++ .update_task "ghost" (some 50) none none ::
          [.update_task "t0" (some 60) none none]) =
      execBatch (execBatch fxBatchState [.create_project "Q2" none none])
        [.update_task "t0" (some 60) none none] := by
  refine ⟨by decide, ?_⟩
  exact (batchOrderIndependence fxBatchState [.create_project "Q2" none none]
    [.update_task "t0" (some 60) none none] "ghost" (some 50) none none (by decide)).2.2

/-! ### Non-interference of the upward recalculation walk -/

theorem taskKey_applyTaskUpdates (x : TaskRow) (u : TaskUpdates) :
    taskKey (applyTaskUpdates x u) = taskKey x := rfl

theorem applyTaskUpdates_parentTaskId (x : TaskRow) (u : TaskUpdates) :
    (applyTaskUpdates x u).parentTaskId = x.parentTaskId := rfl

theorem len_of_keys {l₁ l₂ : List TaskRow} (h : l₁.map taskKey = l₂.map taskKey) :
    l₁.length = l₂.length := by
  have := congrArg List.length h
  simpa using this

theorem getTaskRow_keys_congr : ∀ (ts₁ ts₂ : List TaskRow),
    ts₁.map taskKey = ts₂.map taskKey → ∀ i,
    (getTaskRow ts₁ i).map taskKey = (getTaskRow ts₂ i).map taskKey := by
  intro ts₁
  induction ts₁ with
  | nil =>
    intro ts₂ h i
    cases ts₂ with
    | nil => rfl
    | cons b m => simp at h
  | cons a l ih =>
    intro ts₂ h i
    cases ts₂ with
    | nil => simp at h
    | cons b m =>
      simp only [List.map_cons, List.cons.injEq] at h
      have hid : a.id = b.id := congrArg Prod.fst h.1
      by_cases hc : a.id = i
      · have h₁ : getTaskRow (a :: l) i = some a := by
          unfold getTaskRow
          rw [List.find?_cons_of_pos _ (by simp [hc])]
        have h₂ : getTaskRow (b :: m) i = some b := by
          unfold getTaskRow
          rw [List.find?_cons_of_pos _ (by simp [← hid, hc])]
        rw [h₁, h₂]
        simpa using h.1
      · have h₁ : getTaskRow (a :: l) i = getTaskRow l i := by
          unfold getTaskRow
          rw [List.find?_cons_of_neg _ (by simp [hc])]
        have h₂ : getTaskRow (b :: m) i = getTaskRow m i := by
          unfold getTaskRow
          rw [List.find?_cons_of_neg _ (by simp [← hid, hc])]
        rw [h₁, h₂]
        exact ih m h.2 i

theorem upIds_congr (fuel : Nat) : ∀ (ts₁ ts₂ : List TaskRow),
    ts₁.map taskKey = ts₂.map taskKey → ∀ tid,
    upIds fuel ts₁ tid = upIds fuel ts₂ tid := by
  induction fuel with
  | zero => intros; rfl
  | succ f ih =>
    intro ts₁ ts₂ h tid
    have hget := getTaskRow_keys_congr ts₁ ts₂ h tid
    rw [upIds, upIds]
    cases hg1 : getTaskRow ts₁ tid with
    | none =>
      cases hg2 : getTaskRow ts₂ tid with
      | none => rfl
      | some t => rw [hg1, hg2] at hget; simp at hget
    | some t₁ =>
      cases hg2 : getTaskRow ts₂ tid with
      | none => rw [hg1, hg2] at hget; simp at hget
      | some t₂ =>
        rw [hg1, hg2] at hget
        simp only [Option.map_some'] at hget
        have hkeq : taskKey t₁ = taskKey t₂ := by simpa using hget
        have hpar : t₁.parentTaskId = t₂.parentTaskId :=
          congrArg (fun k => k.2.1) hkeq
        dsimp only
        rw [← hpar]
        cases hp : t₁.parentTaskId with
        | none => rfl
        | some p =>
          dsimp only
          by_cases hpe : (p == "") = true
          · rw [if_pos hpe, if_pos hpe]
          · rw [if_neg hpe, if_neg hpe, ih ts₁ ts₂ h p]

theorem recalcUpOk_congr (fuel : Nat) : ∀ (ts₁ ts₂ : List TaskRow),
    ts₁.map taskKey = ts₂.map taskKey → ∀ tid,
    recalcUpOk fuel ts₁ tid = recalcUpOk fuel ts₂ tid := by
  induction fuel with
  | zero => intros; rfl
  | succ f ih =>
    intro ts₁ ts₂ h tid
    have hget := getTaskRow_keys_congr ts₁ ts₂ h tid
    rw [recalcUpOk, recalcUpOk]
    cases hg1 : getTaskRow ts₁ tid with
    | none =>
      cases hg2 : getTaskRow ts₂ tid with
      | none => rfl
      | some t => rw [hg1, hg2] at hget; simp at hget
    | some t₁ =>
      cases hg2 : getTaskRow ts₂ tid with
      | none => rw [hg1, hg2] at hget; simp at hget
      | some t₂ =>
        rw [hg1, hg2] at hget
        simp only [Option.map_some'] at hget
        have hkeq : taskKey t₁ = taskKey t₂ := by simpa using hget
        have hpar : t₁.parentTaskId = t₂.parentTaskId :=
          congrArg (fun k => k.2.1) hkeq
        dsimp only
        rw [← hpar]
        cases hp : t₁.parentTaskId with
        | none => rfl
        | some p =>
          dsimp only
          rw [ih ts₁ ts₂ h p]

theorem upIds_succ_none (f : Nat) (ts : List TaskRow) (tid : String)
    (h : getTaskRow ts tid = none) : upIds (f + 1) ts tid = [tid] := by
  rw [upIds, h]

theorem upIds_succ_root (f : Nat) (ts : List TaskRow) (tid : String) (t : TaskRow)
    (h : getTaskRow ts tid = some t) (hp : t.parentTaskId = none) :
    upIds (f + 1) ts tid = [tid] := by
  rw [upIds, h]
  dsimp only
  rw [hp]

theorem upIds_succ_stop (f : Nat) (ts : List TaskRow) (tid : String) (t : TaskRow)
    (h : getTaskRow ts tid = some t) (p : String) (hp : t.parentTaskId = some p)
    (hpe : (p == "") = true) : upIds (f + 1) ts tid = [tid] := by
  rw [upIds, h]
  dsimp only
  rw [hp]
  dsimp only
  rw [if_pos hpe]

theorem upIds_succ_step (f : Nat) (ts : List TaskRow) (tid : String) (t : TaskRow)
    (h : getTaskRow ts tid = some t) (p : String) (hp : t.parentTaskId = some p)
    (hpe : (p == "") = false) : upIds (f + 1) ts tid = tid :: upIds f ts p := by
  rw [upIds, h]
  dsimp only
  rw [hp]
  dsimp only
  rw [if_neg (by simp [hpe])]

theorem upIds_mono : ∀ (f g : Nat), f ≤ g → ∀ (ts : List TaskRow) (tid i : String),
    i ∈ upIds f ts tid → i ∈ upIds g ts tid := by
  intro f
  induction f with
  | zero =>
    intro g hg ts tid i hi
    simp only [upIds, List.mem_singleton] at hi
    subst hi
    cases g with
    | zero => simp [upIds]
    | succ g' => rw [upIds]; exact List.mem_cons_self _ _
  | succ f ih =>
    intro g hg ts tid i hi
    cases g with
    | zero => exact absurd hg (by omega)
    | succ g' =>
      cases hgt : getTaskRow ts tid with
      | none =>
        rw [upIds_succ_none f ts tid hgt] at hi
        rw [upIds_succ_none g' ts tid hgt]
        exact hi
      | some t =>
        cases hp : t.parentTaskId with
        | none =>
          rw [upIds_succ_root f ts tid t hgt hp] at hi
          rw [upIds_succ_root g' ts tid t hgt hp]
          exact hi
        | some p =>
          by_cases hpe : (p == "") = true
          · rw [upIds_succ_stop f ts tid t hgt p hp hpe] at hi
            rw [upIds_succ_stop g' ts tid t hgt p hp hpe]
            exact hi
          · have hpe' : (p == "") = false := by simpa using hpe
            rw [upIds_succ_step f ts tid t hgt p hp hpe'] at hi
            rw [upIds_succ_step g' ts tid t hgt p hp hpe']
            rcases List.mem_cons.mp hi with h | h
            · rw [h]; exact List.mem_cons_self _ _
            · exact List.mem_cons_of_mem _ (ih g' (by omega) ts p i h)

theorem getTaskRow_writeParentRecalc_other (ts : List TaskRow) (j i : String)
    (hij : i ≠ j) (pc : Int) (ic : Bool) (st' : String) :
    getTaskRow (writeParentRecalc ts j pc ic st') i = getTaskRow ts i := by
  unfold getTaskRow writeParentRecalc
  exact find?_map_other ts TaskRow.id
    (fun t => { t with percentComplete := pc, isCompleted := ic, status := st' })
    (fun _ => rfl) i j hij

theorem recalcParentFuel_untouched (fuel : Nat) : ∀ (s : Store) (pid i : String),
    i ∉ upIds fuel s.tasks pid →
    getTaskRow (recalcParentFuel fuel s pid).tasks i = getTaskRow s.tasks i := by
  induction fuel with
  | zero => intros; rfl
  | succ f ih =>
    intro s pid i hi
    have hipid : i ≠ pid := by
      intro he
      exact hi (by rw [upIds, he]; exact List.mem_cons_self _ _)
    rw [recalcParentFuel]
    cases hg : getTaskRow s.tasks pid with
    | none => rfl
    | some T =>
      dsimp only
      by_cases hc : (s.tasks.filter (fun t => t.parentTaskId == some pid)).length = 0
      · rw [if_pos hc]
      · rw [if_neg hc]
        cases hp : T.parentTaskId with
        | none =>
          dsimp only
          exact getTaskRow_writeParentRecalc_other s.tasks pid i hipid _ _ _
        | some p =>
          dsimp only
          by_cases hpe : p = ""
          · rw [if_pos (show (p == "") = true by simp [hpe])]
            exact getTaskRow_writeParentRecalc_other s.tasks pid i hipid _ _ _
          · rw [if_neg (show ¬ (p == "") = true by simpa using hpe)]
            have hups : upIds (f + 1) s.tasks pid = pid :: upIds f s.tasks p :=
              upIds_succ_step f s.tasks pid T hg p hp (by simpa using hpe)
            have hrest : i ∉ upIds f (writeParentRecalc s.tasks pid
                (jsRound ((s.tasks.filter (fun t => t.parentTaskId == some pid)).foldl
                  (fun sum t => sum + t.percentComplete) 0)
                  (s.tasks.filter (fun t => t.parentTaskId == some pid)).length)
                ((jsRound ((s.tasks.filter (fun t => t.parentTaskId == some pid)).foldl
                  (fun sum t => sum + t.percentComplete) 0)
                  (s.tasks.filter (fun t => t.parentTaskId == some pid)).length) == 100)
                (if ((jsRound ((s.tasks.filter (fun t => t.parentTaskId == some pid)).foldl
                    (fun sum t => sum + t.percentComplete) 0)
                    (s.tasks.filter (fun t => t.parentTaskId == some pid)).length) == 100) = true
                  then "completed"
                  else if (jsRound ((s.tasks.filter (fun t => t.parentTaskId == some pid)).foldl
                    (fun sum t => sum + t.percentComplete) 0)
                    (s.tasks.filter (fun t => t.parentTaskId == some pid)).length) > 0
                  then "in-progress" else T.status)) p := by
              rw [upIds_congr f _ _ (writeParentRecalc_keys ..) p]
              intro hmem
              exact hi (by rw [hups]; exact List.mem_cons_of_mem _ hmem)
            exact (ih _ p i hrest).trans
              (getTaskRow_writeParentRecalc_other s.tasks pid i hipid _ _ _)

theorem notSelfUp_spec (ts : List TaskRow) (t : TaskRow) (tid : String)
    (h : notSelfUp ts t tid = true) (p : String) (hp : t.parentTaskId = some p)
    (hpe : p ≠ "") : tid ∉ upIds (ts.length + 1) ts p := by
  unfold notSelfUp at h
  rw [hp] at h
  simp only [Bool.or_eq_true] at h
  rcases h with h | h
  · exact absurd (by simpa using h) hpe
  · intro hmem
    have : (upIds (ts.length + 1) ts p).contains tid = true := by simpa using hmem
    rw [this] at h
    simp at h

theorem updateMap_keys (ts : List TaskRow) (tid : String) (u : TaskUpdates) :
    (ts.map (fun x => if x.id == tid then applyTaskUpdates x u else x)).map taskKey =
      ts.map taskKey := by
  rw [List.map_map]
  refine List.map_congr_left ?_
  intro x _
  by_cases h : x.id = tid <;> simp [h, taskKey_applyTaskUpdates]

theorem execAction_update_found (st : BatchState) (tid : String) (pc : Option Int)
    (ic : Option Bool) (rb : Option (Option String)) (t : TaskRow)
    (ht : getTaskRow st.store.tasks tid = some t)
    (hni : notSelfUp st.store.tasks t tid = true) :
    getTaskRow (execAction st (.update_task tid pc ic rb)).store.tasks tid =
      some (applyTaskUpdates t (computeTaskUpdates pc ic rb t)) := by
  dsimp only [execAction]
  rw [ht]
  dsimp only
  rw [recalcProject_tasks]
  have hupd : getTaskRow (st.store.tasks.map (fun x =>
      if x.id == tid then applyTaskUpdates x (computeTaskUpdates pc ic rb t) else x)) tid =
      some (applyTaskUpdates t (computeTaskUpdates pc ic rb t)) := by
    unfold getTaskRow
    rw [find?_map_update st.store.tasks TaskRow.id
      (fun x => applyTaskUpdates x (computeTaskUpdates pc ic rb t)) (fun _ => rfl) tid]
    unfold getTaskRow at ht
    rw [ht]
    rfl
  rw [applyTaskUpdates_parentTaskId]
  cases hp : t.parentTaskId with
  | none =>
    rw [if_neg (by simp [strTruthy])]
    exact hupd
  | some p =>
    by_cases hpe : p = ""
    · rw [if_neg (by simp [strTruthy, hpe])]
      exact hupd
    · rw [if_pos (by simp [strTruthy, hpe])]
      dsimp only
      unfold recalculateParentTaskCompletion
      have hkeys := updateMap_keys st.store.tasks tid (computeTaskUpdates pc ic rb t)
      have hlen : (st.store.tasks.map (fun x =>
          if x.id == tid then applyTaskUpdates x (computeTaskUpdates pc ic rb t) else x)).length =
          st.store.tasks.length := len_of_keys hkeys
      refine (recalcParentFuel_untouched _ _ p tid ?_).trans hupd
      rw [upIds_congr _ _ _ hkeys p, hlen]
      exact notSelfUp_spec st.store.tasks t tid hni p hp hpe

/-! ### C3, C4, C10: the `update_task` branch of the interpreter -/

/-- C3 counterexample: an `update_task` supplying both `percentComplete: 50`
and `isCompleted: true` stores `percentComplete = 100`, not the explicitly
supplied 50 — the explicit value is overridden, contrary to the claim. -/
theorem updateTask_explicitPc_cex :
    ((execAction fxBatchState (.update_task "t0" (some 50) (some true) none)).store.tasks.find?
      (fun t => t.id == "t0")).map (fun t => t.percentComplete) = some 100 ∧
    ¬ (((execAction fxBatchState (.update_task "t0" (some 50) (some true) none)).store.tasks.find?
      (fun t => t.id == "t0")).map (fun t => t.percentComplete) = some 50) := by
  constructor
  · rfl
  · decide

/-- C3 (amended): when `update_task` supplies `isCompleted` explicitly, it
overrides the `isCompleted` derived from `percentComplete`; and when the
explicit `isCompleted` is `true`, `percentComplete` is forced to 100
unconditionally — even when `percentComplete` was itself explicitly
supplied in the same action (a nonzero explicit value is overridden; an
explicit 0 falls back to the task's previous value).  The updated record is
what the store then holds for the task. -/
theorem updateTask_isCompleted_override (st : BatchState) (tid : String) (pc : Int)
    (ic : Bool) (rb : Option (Option String)) (t : TaskRow)
    (ht : getTaskRow st.store.tasks tid = some t)
    (hni : notSelfUp st.store.tasks t tid = true) :
    (computeTaskUpdates (some pc) (some ic) rb t).isCompleted = some ic ∧
    (computeTaskUpdates (some pc) (some ic) rb t).percentComplete =
      some (if ic then (100 : Int) else if pc = 0 then t.percentComplete else pc) ∧
    getTaskRow (execAction st (.update_task tid (some pc) (some ic) rb)).store.tasks tid =
      some (applyTaskUpdates t (computeTaskUpdates (some pc) (some ic) rb t)) := by
  refine ⟨?_, ?_, execAction_update_found st tid _ _ rb t ht hni⟩
  · cases rb <;> rfl
  · cases rb <;> simp [computeTaskUpdates, jsOrNum, beq_iff_eq]

/-- Witness for the amended C3 on the fixture state: explicit
`percentComplete: 50` with `isCompleted: true` yields a stored
`percentComplete` of 100. -/
theorem updateTask_isCompleted_override_witness :
    (computeTaskUpdates (some 50) (some true) none
      (mkTask "t0" "p1" none 10 "blocked" 0)).isCompleted = some true ∧
    (computeTaskUpdates (some 50) (some true) none
      (mkTask "t0" "p1" none 10 "blocked" 0)).percentComplete = some 100 ∧
    getTaskRow (execAction fxBatchState
        (.update_task "t0" (some 50) (some true) none)).store.tasks "t0" =
      some (applyTaskUpdates (mkTask "t0" "p1" none 10 "blocked" 0)
        (computeTaskUpdates (some 50) (some true) none
          (mkTask "t0" "p1" none 10 "blocked" 0))) :=
  updateTask_isCompleted_override fxBatchState "t0" 50 true none
    (mkTask "t0" "p1" none 10 "blocked" 0) (by decide) (by decide)

/-- C4 counterexample: an `update_task` with `percentComplete: 0` on a task
whose stored status is the custom value `"blocked"` stores status
`"pending"` — the prior status is not preserved by the interpreter. -/
theorem updateTask_zeroStatus_cex :
    ((execAction fxBatchState (.update_task "t0" (some 0) none none)).store.tasks.find?
      (fun t => t.id == "t0")).map (fun t => t.status) = some "pending" ∧
    ¬ (((execAction fxBatchState (.update_task "t0" (some 0) none none)).store.tasks.find?
      (fun t => t.id == "t0")).map (fun t => t.status) = some "blocked") := by
  constructor
  · rfl
  · decide

/-- C4 (amended): an `update_task` that supplies `percentComplete: 0`
derives status `"pending"` and stores it, clobbering any custom prior
status.  (Only `recalculateParentTaskCompletion` preserves the stored
status at a zero average; the interpreter's `update_task` branch does
not.) -/
theorem updateTask_zero_forces_pending (st : BatchState) (tid : String)
    (rb : Option (Option String)) (t : TaskRow)
    (ht : getTaskRow st.store.tasks tid = some t)
    (hni : notSelfUp st.store.tasks t tid = true) :
    (computeTaskUpdates (some 0) none rb t).status = some "pending" ∧
    getTaskRow (execAction st (.update_task tid (some 0) none rb)).store.tasks tid =
      some (applyTaskUpdates t (computeTaskUpdates (some 0) none rb t)) ∧
    (applyTaskUpdates t (computeTaskUpdates (some 0) none rb t)).status = "pending" := by
  refine ⟨?_, execAction_update_found st tid _ _ rb t ht hni, ?_⟩
  · cases rb <;> rfl
  · cases rb <;> rfl

/-- Witness for the amended C4: the fixture task's `"blocked"` status is
replaced by `"pending"`. -/
theorem updateTask_zero_forces_pending_witness :
    (computeTaskUpdates (some 0) none none
      (mkTask "t0" "p1" none 10 "blocked" 0)).status = some "pending" ∧
    getTaskRow (execAction fxBatchState
        (.update_task "t0" (some 0) none none)).store.tasks "t0" =
      some (applyTaskUpdates (mkTask "t0" "p1" none 10 "blocked" 0)
        (computeTaskUpdates (some 0) none none (mkTask "t0" "p1" none 10 "blocked" 0))) ∧
    (applyTaskUpdates (mkTask "t0" "p1" none 10 "blocked" 0)
      (computeTaskUpdates (some 0) none none
        (mkTask "t0" "p1" none 10 "blocked" 0))).status = "pending" :=
  updateTask_zero_forces_pending fxBatchState "t0" none
    (mkTask "t0" "p1" none 10 "blocked" 0) (by decide) (by decide)

/-- C10: an `update_task` with `isCompleted: false` and `percentComplete: 0`
stores the task's previous `percentComplete`, not 0: the fallback
`updates.percentComplete || existingTask.percentComplete` treats the
derived 0 as absent. -/
theorem updateTask_zeroFalse_keepsPc (st : BatchState) (tid : String)
    (rb : Option (Option String)) (t : TaskRow)
    (ht : getTaskRow st.store.tasks tid = some t)
    (hni : notSelfUp st.store.tasks t tid = true) :
    (computeTaskUpdates (some 0) (some false) rb t).percentComplete =
      some t.percentComplete ∧
    getTaskRow (execAction st (.update_task tid (some 0) (some false) rb)).store.tasks tid =
      some (applyTaskUpdates t (computeTaskUpdates (some 0) (some false) rb t)) ∧
    (applyTaskUpdates t (computeTaskUpdates (some 0) (some false) rb t)).percentComplete =
      t.percentComplete := by
  refine ⟨?_, execAction_update_found st tid _ _ rb t ht hni, ?_⟩
  · cases rb <;> rfl
  · cases rb <;> rfl

/-- Witness for C10: the fixture task keeps `percentComplete = 10`. -/
theorem updateTask_zeroFalse_keepsPc_witness :
    (computeTaskUpdates (some 0) (some false) none
      (mkTask "t0" "p1" none 10 "blocked" 0)).percentComplete = some 10 ∧
    getTaskRow (execAction fxBatchState
        (.update_task "t0" (some 0) (some false) none)).store.tasks "t0" =
      some (applyTaskUpdates (mkTask "t0" "p1" none 10 "blocked" 0)
        (computeTaskUpdates (some 0) (some false) none
          (mkTask "t0" "p1" none 10 "blocked" 0))) ∧
    (applyTaskUpdates (mkTask "t0" "p1" none 10 "blocked" 0)
      (computeTaskUpdates (some 0) (some false) none
        (mkTask "t0" "p1" none 10 "blocked" 0))).percentComplete = 10 :=
  updateTask_zeroFalse_keepsPc fxBatchState "t0" none
    (mkTask "t0" "p1" none 10 "blocked" 0) (by decide) (by decide)

/-! ### C1: the parent-task aggregation formula and its upward recursion -/

theorem getTaskRow_writeParentRecalc_self (ts : List TaskRow) (tid : String)
    (pc : Int) (ic : Bool) (st' : String) :
    getTaskRow (writeParentRecalc ts tid pc ic st') tid =
      (getTaskRow ts tid).map
        (fun t => { t with percentComplete := pc, isCompleted := ic, status := st' }) := by
  unfold getTaskRow writeParentRecalc
  exact find?_map_update ts TaskRow.id
    (fun t => { t with percentComplete := pc, isCompleted := ic, status := st' })
    (fun _ => rfl) tid

theorem writeParentRecalc_length (ts : List TaskRow) (tid : String) (pc : Int)
    (ic : Bool) (st' : String) :
    (writeParentRecalc ts tid pc ic st').length = ts.length := by
  unfold writeParentRecalc
  exact List.length_map ..

theorem recalcUpOk_succ_step (f : Nat) (ts : List TaskRow) (tid : String)
    (t : TaskRow) (h : getTaskRow ts tid = some t) (p : String)
    (hp : t.parentTaskId = some p) (hpe : (p == "") = false) :
    recalcUpOk (f + 1) ts tid = recalcUpOk f ts p := by
  rw [recalcUpOk, h]
  dsimp only
  rw [hp]
  dsimp only
  rw [hpe, Bool.false_or]

theorem recalcParentFuel_stable : ∀ (f : Nat) (s : Store) (tid : String) (g : Nat),
    recalcUpOk f s.tasks tid = true → f ≤ g →
    recalcParentFuel g s tid = recalcParentFuel f s tid := by
  intro f
  induction f with
  | zero =>
    intro s tid g h hfg
    rw [recalcUpOk] at h
    cases h
  | succ f ih =>
    intro s tid g h hfg
    cases g with
    | zero => exact absurd hfg (by omega)
    | succ g' =>
      rw [recalcParentFuel]
      conv_rhs => rw [recalcParentFuel]
      cases hfind : getTaskRow s.tasks tid with
      | none => rfl
      | some T =>
        dsimp only
        by_cases hc : (s.tasks.filter (fun t => t.parentTaskId == some tid)).length = 0
        · rw [if_pos hc, if_pos hc]
        · rw [if_neg hc, if_neg hc]
          cases hp : T.parentTaskId with
          | none => rfl
          | some p =>
            dsimp only
            by_cases hpe : p = ""
            · rw [if_pos (show (p == "") = true by simp [hpe]),
                if_pos (show (p == "") = true by simp [hpe])]
            · rw [if_neg (show ¬ (p == "") = true by simpa using hpe),
                if_neg (show ¬ (p == "") = true by simpa using hpe)]
              have hok : recalcUpOk f s.tasks p = true := by
                rw [← recalcUpOk_succ_step f s.tasks tid T hfind p hp
                  (by simpa using hpe)]
                exact h
              have hok' : recalcUpOk f (writeParentRecalc s.tasks tid
                  (jsRound ((s.tasks.filter (fun t => t.parentTaskId == some tid)).foldl
                    (fun sum t => sum + t.percentComplete) 0)
                    (s.tasks.filter (fun t => t.parentTaskId == some tid)).length)
                  ((jsRound ((s.tasks.filter (fun t => t.parentTaskId == some tid)).foldl
                    (fun sum t => sum + t.percentComplete) 0)
                    (s.tasks.filter (fun t => t.parentTaskId == some tid)).length) == 100)
                  (if ((jsRound ((s.tasks.filter (fun t => t.parentTaskId == some tid)).foldl
                      (fun sum t => sum + t.percentComplete) 0)
                      (s.tasks.filter (fun t => t.parentTaskId == some tid)).length) == 100) = true
                    then "completed"
                    else if (jsRound ((s.tasks.filter (fun t => t.parentTaskId == some tid)).foldl
                      (fun sum t => sum + t.percentComplete) 0)
                      (s.tasks.filter (fun t => t.parentTaskId == some tid)).length) > 0
                    then "in-progress" else T.status)) p = true := by
                rw [recalcUpOk_congr f _ _ (writeParentRecalc_keys ..) p]
                exact hok
              exact ih _ p g' hok' (by omega)

theorem parentRecalcWrite_keys (s : Store) (tid st' : String) :
    (parentRecalcWrite s tid st').tasks.map taskKey = s.tasks.map taskKey := by
  unfold parentRecalcWrite
  exact writeParentRecalc_keys ..

theorem parentRecalcWrite_len (s : Store) (tid st' : String) :
    (parentRecalcWrite s tid st').tasks.length = s.tasks.length := by
  unfold parentRecalcWrite
  exact writeParentRecalc_length ..

/-- C1: for a task with at least one direct child,
`recalculateParentTaskCompletion` stores on that task the rounded mean of
its direct children's `percentComplete`, sets `isCompleted` to
(average = 100), and sets the status to `"completed"` at 100,
`"in-progress"` above 0, and otherwise preserves the previously stored
status; afterwards, if the task has no parent the call stops with exactly
that one write, and if it has a parent the whole call equals the same
recomputation applied recursively to the parent (continuing up to the
root). -/
theorem recalcParent_spec (s : Store) (tid : String) (T : TaskRow)
    (hT : getTaskRow s.tasks tid = some T)
    (hcs : ¬ (s.tasks.filter (fun t => t.parentTaskId == some tid)).length = 0)
    (hni : notSelfUp s.tasks T tid = true) :
    getTaskRow (recalculateParentTaskCompletion s tid).tasks tid =
      some { T with
        percentComplete := childAvg s tid,
        isCompleted := childAvg s tid == 100,
        status := if childAvg s tid == 100 then "completed"
          else if childAvg s tid > 0 then "in-progress" else T.status } ∧
    (T.parentTaskId = none →
      recalculateParentTaskCompletion s tid = parentRecalcWrite s tid T.status) ∧
    (∀ p, T.parentTaskId = some p → p ≠ "" →
      recalcUpOk s.tasks.length s.tasks p = true →
      recalculateParentTaskCompletion s tid =
        recalculateParentTaskCompletion (parentRecalcWrite s tid T.status) p) := by
  have hbase : getTaskRow (parentRecalcWrite s tid T.status).tasks tid =
      some { T with
        percentComplete := childAvg s tid,
        isCompleted := childAvg s tid == 100,
        status := if childAvg s tid == 100 then "completed"
          else if childAvg s tid > 0 then "in-progress" else T.status } := by
    refine Eq.trans (getTaskRow_writeParentRecalc_self s.tasks tid _ _ _) ?_
    rw [hT]
    exact rfl
  refine ⟨?_, ?_, ?_⟩
  · refine Eq.trans ?_ hbase
    unfold recalculateParentTaskCompletion
    rw [recalcParentFuel, hT]
    dsimp only
    rw [if_neg hcs]
    cases hp : T.parentTaskId with
    | none => exact rfl
    | some p =>
      dsimp only
      by_cases hpe : p = ""
      · rw [if_pos (show (p == "") = true by simp [hpe])]
        exact rfl
      · rw [if_neg (show ¬ (p == "") = true by simpa using hpe)]
        have hnot : tid ∉ upIds s.tasks.length (parentRecalcWrite s tid T.status).tasks p := by
          rw [upIds_congr s.tasks.length (parentRecalcWrite s tid T.status).tasks s.tasks
            (parentRecalcWrite_keys ..) p]
          intro hmem
          exact notSelfUp_spec s.tasks T tid hni p hp hpe
            (upIds_mono _ _ (by omega) _ _ _ hmem)
        exact recalcParentFuel_untouched s.tasks.length
          (parentRecalcWrite s tid T.status) p tid hnot
  · intro hroot
    unfold recalculateParentTaskCompletion
    rw [recalcParentFuel, hT]
    dsimp only
    rw [if_neg hcs, hroot]
    exact rfl
  · intro p hp hpe hok
    have h1 : recalculateParentTaskCompletion s tid =
        recalcParentFuel s.tasks.length (parentRecalcWrite s tid T.status) p := by
      unfold recalculateParentTaskCompletion
      rw [recalcParentFuel, hT]
      dsimp only
      rw [if_neg hcs, hp]
      dsimp only
      rw [if_neg (show ¬ (p == "") = true by simpa using hpe)]
      exact rfl
    have h2 : recalculateParentTaskCompletion (parentRecalcWrite s tid T.status) p =
        recalcParentFuel (s.tasks.length + 1) (parentRecalcWrite s tid T.status) p := by
      unfold recalculateParentTaskCompletion
      rw [parentRecalcWrite_len]
    have h3 : recalcParentFuel (s.tasks.length + 1) (parentRecalcWrite s tid T.status) p =
        recalcParentFuel s.tasks.length (parentRecalcWrite s tid T.status) p := by
      refine recalcParentFuel_stable s.tasks.length _ p _ ?_ (by omega)
      exact (recalcUpOk_congr s.tasks.length (parentRecalcWrite s tid T.status).tasks s.tasks
        (parentRecalcWrite_keys ..) p).trans hok
    rw [h1, h2, h3]

/-- Witness for C1: in the grandparent→parent→leaves fixture, recalculating
the middle task stores the 75% average with in-progress status, and the
call continues recursively on the grandparent. -/
theorem recalcParent_spec_witness :
    getTaskRow (recalculateParentTaskCompletion fxChainStore "m").tasks "m" =
      some { mkTask "m" "p1" (some "g") 0 "pending" 0 with
        percentComplete := 75, isCompleted := false, status := "in-progress" } ∧
    recalculateParentTaskCompletion fxChainStore "m" =
      recalculateParentTaskCompletion (parentRecalcWrite fxChainStore "m" "pending") "g" := by
  have h := recalcParent_spec fxChainStore "m" (mkTask "m" "p1" (some "g") 0 "pending" 0)
    (by decide) (by decide) (by decide)
  exact ⟨h.1, h.2.2 "g" rfl (by decide) (by decide)⟩

/-! ### C7: chains, the comparator, and forest membership -/

theorem inj_of_nodup_ids (ts : List TaskRow) (h : (ts.map TaskRow.id).Nodup) :
    ∀ a ∈ ts, ∀ b ∈ ts, a.id = b.id → a = b := by
  intro a ha b hb hab
  exact List.inj_on_of_nodup_map h ha hb hab

theorem orderedInsert_filter_key (a : TaskRow) (k : Int) (l : List TaskRow) :
    (List.orderedInsert taskLE a l).filter (fun t => t.sortOrder == k) =
      if (a.sortOrder == k) = true then a :: l.filter (fun t => t.sortOrder == k)
      else l.filter (fun t => t.sortOrder == k) := by
  induction l with
  | nil => by_cases hpa : (a.sortOrder == k) = true <;> simp [List.orderedInsert, hpa]
  | cons b l ih =>
    by_cases hr : taskLE a b
    · rw [List.orderedInsert, if_pos hr]
      by_cases hpa : (a.sortOrder == k) = true <;> simp [List.filter_cons, hpa]
    · rw [List.orderedInsert, if_neg hr]
      by_cases hpb : (b.sortOrder == k) = true
      · by_cases hpa : (a.sortOrder == k) = true
        · exfalso
          have ha : a.sortOrder = k := by simpa using hpa
          have hb : b.sortOrder = k := by simpa using hpb
          exact hr (by simp [taskLE, ha, hb])
        · simp [List.filter_cons, hpb, hpa, ih]
      · simp only [List.filter_cons, hpb, ih]
        by_cases hpa : (a.sortOrder == k) = true <;> simp [hpa, hpb]

theorem insertionSort_filter_key (l : List TaskRow) (k : Int) :
    (List.insertionSort taskLE l).filter (fun t => t.sortOrder == k) =
      l.filter (fun t => t.sortOrder == k) := by
  induction l with
  | nil => rfl
  | cons a l ih =>
    rw [List.insertionSort, orderedInsert_filter_key, ih]
    by_cases hpa : (a.sortOrder == k) = true <;> simp [List.filter_cons, hpa]

theorem insertionSort_sortOrder_pairwise (l : List TaskRow) :
    ((List.insertionSort taskLE l).map (fun t => t.sortOrder)).Pairwise (· ≤ ·) := by
  have h := List.sorted_insertionSort taskLE l
  refine List.Pairwise.map _ ?_ h
  intro a b hab
  exact hab

theorem DownChain_append (ts : List TaskRow) (pid : Option String)
    (c d : List TaskRow) :
    DownChain ts pid (c ++ d) ↔
      DownChain ts pid c ∧ DownChain ts (chainRef pid c) d := by
  induction c generalizing pid with
  | nil => simp [DownChain, chainRef]
  | cons t c ih => simp [DownChain, chainRef, ih, and_assoc]

theorem chainRef_concat (pid : Option String) (c : List TaskRow) (u : TaskRow) :
    chainRef pid (c ++ [u]) = some u.id := by
  induction c generalizing pid with
  | nil => rfl
  | cons t c ih => exact ih (some t.id)

theorem getTaskRow_self (ts : List TaskRow)
    (inj : ∀ a ∈ ts, ∀ b ∈ ts, a.id = b.id → a = b) (u : TaskRow) (hu : u ∈ ts) :
    getTaskRow ts u.id = some u := by
  unfold getTaskRow
  cases hf : ts.find? (fun t => t.id == u.id) with
  | none =>
    have := List.find?_eq_none.mp hf u hu
    simp at this
  | some w =>
    have hw1 := List.find?_some hf
    have hw2 := List.mem_of_find?_eq_some hf
    have : w = u := inj w hw2 u hu (by simpa using hw1)
    rw [this]

theorem chain_bound (ts : List TaskRow)
    (inj : ∀ a ∈ ts, ∀ b ∈ ts, a.id = b.id → a = b) :
    ∀ (ws : List TaskRow) (pid : Option String) (u : TaskRow) (f : Nat),
      DownChain ts pid (ws ++ [u]) → upFuel f ts u.id = true →
      ws.length + (match pid with | none => 1 | some _ => 2) ≤ f := by
  intro ws
  induction ws using List.reverseRecOn with
  | nil =>
    intro pid u f hch hup
    rw [List.nil_append] at hch
    obtain ⟨hu, hpar, -⟩ : u ∈ ts ∧ u.parentTaskId = pid ∧ True := hch
    cases f with
    | zero => cases hup
    | succ f' =>
      rw [upFuel, getTaskRow_self ts inj u hu] at hup
      dsimp only at hup
      rw [hpar] at hup
      cases pid with
      | none => simp
      | some q =>
        dsimp only at hup
        cases f' with
        | zero => rw [upFuel] at hup; cases hup
        | succ f'' => simp
  | append_singleton ws v ih =>
    intro pid u f hch hup
    have hsplit := (DownChain_append ts pid (ws ++ [v]) [u]).mp hch
    obtain ⟨hch1, hch2⟩ := hsplit
    rw [chainRef_concat] at hch2
    obtain ⟨hu, hpar, -⟩ : u ∈ ts ∧ u.parentTaskId = some v.id ∧ True := hch2
    cases f with
    | zero => cases hup
    | succ f' =>
      rw [upFuel, getTaskRow_self ts inj u hu] at hup
      dsimp only at hup
      rw [hpar] at hup
      dsimp only at hup
      have hb := ih pid v f' hch1 hup
      cases pid with
      | none => simp only [List.length_append, List.length_singleton]; simp at hb; omega
      | some q => simp only [List.length_append, List.length_singleton]; simp at hb; omega

theorem chain_from_none_le (ts : List TaskRow)
    (inj : ∀ a ∈ ts, ∀ b ∈ ts, a.id = b.id → a = b)
    (hup : ∀ t ∈ ts, upFuel ts.length ts t.id = true) :
    ∀ c, DownChain ts none c → c.length ≤ ts.length := by
  intro c hc
  rcases List.eq_nil_or_concat c with rfl | ⟨ws, u, rfl⟩
  · simp
  · rw [List.concat_eq_append] at hc ⊢
    have hsplit := (DownChain_append ts none ws [u]).mp hc
    have hu : u ∈ ts := by
      have h2 := hsplit.2
      exact (show u ∈ ts ∧ u.parentTaskId = chainRef none ws ∧ True from h2).1
    have hb := chain_bound ts inj ws none u ts.length hc (hup u hu)
    simp at hb
    simp
    omega

theorem chain_from_some_le (ts : List TaskRow) (tid : String)
    (inj : ∀ a ∈ ts, ∀ b ∈ ts, a.id = b.id → a = b)
    (hup : ∀ t ∈ ts, upFuel ts.length ts t.id = true) :
    ∀ c, DownChain ts (some tid) c → c.length ≤ ts.length := by
  intro c hc
  rcases List.eq_nil_or_concat c with rfl | ⟨ws, u, rfl⟩
  · simp
  · rw [List.concat_eq_append] at hc ⊢
    have hsplit := (DownChain_append ts (some tid) ws [u]).mp hc
    have hu : u ∈ ts := by
      have h2 := hsplit.2
      exact (show u ∈ ts ∧ u.parentTaskId = chainRef (some tid) ws ∧ True from h2).1
    have hb := chain_bound ts inj ws (some tid) u ts.length hc (hup u hu)
    simp at hb
    simp
    omega

theorem buildFuel_children (ts : List TaskRow) :
    ∀ (fuel : Nat) (pid : Option String),
      (∀ c, DownChain ts pid c → c.length < fuel) →
      ∀ nd : TaskTree, InForest nd (buildTaskTreeFuel fuel ts pid) →
        nd.children.map TaskTree.task =
          List.insertionSort taskLE (ts.filter (fun t => t.parentTaskId == some nd.task.id)) := by
  intro fuel
  induction fuel with
  | zero =>
    intro pid hb nd hnd
    rw [buildTaskTreeFuel] at hnd
    cases hnd with
    | here hmem => simp at hmem
    | deeper hr hdeep => simp at hr
  | succ f ih =>
    intro pid hb nd hnd
    rw [buildTaskTreeFuel] at hnd
    cases hnd with
    | here hmem =>
      simp only [List.mem_map] at hmem
      obtain ⟨t, ht, rfl⟩ := hmem
      have htf : t ∈ ts.filter (fun x => x.parentTaskId == pid) :=
        (List.perm_insertionSort taskLE _).subset ht
      have ht_ts : t ∈ ts := (List.mem_filter.mp htf).1
      have ht_par : t.parentTaskId = pid := by
        have := (List.mem_filter.mp htf).2
        simpa using this
      simp only [TaskTree.children, TaskTree.task]
      cases f with
      | zero =>
        rw [buildTaskTreeFuel]
        simp only [List.map_nil]
        rcases hfe : ts.filter (fun x => x.parentTaskId == some t.id) with _ | ⟨u, rest⟩
        · rw [hfe]
          exact rfl
        · exfalso
          have hu : u ∈ ts.filter (fun x => x.parentTaskId == some t.id) := by
            rw [hfe]; exact List.mem_cons_self _ _
          have hu_ts : u ∈ ts := (List.mem_filter.mp hu).1
          have hu_par : u.parentTaskId = some t.id := by
            have := (List.mem_filter.mp hu).2
            simpa using this
          have hchain : DownChain ts pid [t, u] :=
            ⟨ht_ts, ht_par, hu_ts, hu_par, trivial⟩
          have := hb [t, u] hchain
          simp at this
      | succ f' =>
        rw [buildTaskTreeFuel, List.map_map]
        have hcomp : (TaskTree.task ∘ fun task =>
            TaskTree.node task (buildTaskTreeFuel f' ts (some task.id))) = id := rfl
        rw [hcomp, List.map_id]
    | deeper hr hdeep =>
      rename_i r
      simp only [List.mem_map] at hr
      obtain ⟨t, ht, rfl⟩ := hr
      have htf : t ∈ ts.filter (fun x => x.parentTaskId == pid) :=
        (List.perm_insertionSort taskLE _).subset ht
      have ht_ts : t ∈ ts := (List.mem_filter.mp htf).1
      have ht_par : t.parentTaskId = pid := by
        have := (List.mem_filter.mp htf).2
        simpa using this
      have hb' : ∀ cc, DownChain ts (some t.id) cc → cc.length < f := by
        intro cc hcc
        have hchain : DownChain ts pid (t :: cc) := ⟨ht_ts, ht_par, hcc⟩
        have := hb (t :: cc) hchain
        simp only [List.length_cons] at this
        omega
      exact ih (some t.id) hb' nd hdeep

theorem buildFuel_task_mem (ts : List TaskRow) :
    ∀ (fuel : Nat) (pid : Option String),
      ∀ nd : TaskTree, InForest nd (buildTaskTreeFuel fuel ts pid) → nd.task ∈ ts := by
  intro fuel
  induction fuel with
  | zero =>
    intro pid nd hnd
    rw [buildTaskTreeFuel] at hnd
    cases hnd with
    | here hmem => simp at hmem
    | deeper hr hdeep => simp at hr
  | succ f ih =>
    intro pid nd hnd
    rw [buildTaskTreeFuel] at hnd
    cases hnd with
    | here hmem =>
      simp only [List.mem_map] at hmem
      obtain ⟨t, ht, rfl⟩ := hmem
      have htf : t ∈ ts.filter (fun x => x.parentTaskId == pid) :=
        (List.perm_insertionSort taskLE _).subset ht
      exact (List.mem_filter.mp htf).1
    | deeper hr hdeep =>
      rename_i r
      simp only [List.mem_map] at hr
      obtain ⟨t, ht, rfl⟩ := hr
      exact ih (some t.id) nd hdeep

theorem buildFuel_parent (ts : List TaskRow) :
    ∀ (fuel : Nat) (pid : Option String),
      ∀ nd : TaskTree, InForest nd (buildTaskTreeFuel fuel ts pid) →
        nd.task.parentTaskId = pid ∨ ∃ w ∈ ts, nd.task.parentTaskId = some w.id := by
  intro fuel
  induction fuel with
  | zero =>
    intro pid nd hnd
    rw [buildTaskTreeFuel] at hnd
    cases hnd with
    | here hmem => simp at hmem
    | deeper hr hdeep => simp at hr
  | succ f ih =>
    intro pid nd hnd
    rw [buildTaskTreeFuel] at hnd
    cases hnd with
    | here hmem =>
      simp only [List.mem_map] at hmem
      obtain ⟨t, ht, rfl⟩ := hmem
      have htf : t ∈ ts.filter (fun x => x.parentTaskId == pid) :=
        (List.perm_insertionSort taskLE _).subset ht
      have ht_par : t.parentTaskId = pid := by
        have := (List.mem_filter.mp htf).2
        simpa using this
      exact Or.inl ht_par
    | deeper hr hdeep =>
      rename_i r
      simp only [List.mem_map] at hr
      obtain ⟨t, ht, rfl⟩ := hr
      have htf : t ∈ ts.filter (fun x => x.parentTaskId == pid) :=
        (List.perm_insertionSort taskLE _).subset ht
      have ht_ts : t ∈ ts := (List.mem_filter.mp htf).1
      rcases ih (some t.id) nd hdeep with h | h
      · exact Or.inr ⟨t, ht_ts, h⟩
      · exact Or.inr h

/-- C7: `buildTaskTree` on a flat task list with parent reference `null` is
a pure function returning a forest whose roots are exactly the tasks with
`parentTaskId` null (in stable `sortOrder` order), in which every node's
children are exactly the tasks whose `parentTaskId` equals that node's id,
sibling lists are sorted ascending by `sortOrder` with ties kept in
original relative order, an empty input yields an empty forest, and a task
whose non-null `parentTaskId` matches no input task id appears nowhere in
the forest. -/
theorem buildTaskTree_spec (ts : List TaskRow)
    (hnodup : (ts.map TaskRow.id).Nodup)
    (hup : ∀ t ∈ ts, upFuel ts.length ts t.id = true) :
    buildTaskTree ([] : List TaskRow) none = [] ∧
    (buildTaskTree ts none).map TaskTree.task =
      List.insertionSort taskLE (ts.filter (fun t => t.parentTaskId == none)) ∧
    (∀ k : Int, ((buildTaskTree ts none).map TaskTree.task).filter
        (fun t => t.sortOrder == k) =
      ts.filter (fun t => t.parentTaskId == none && t.sortOrder == k)) ∧
    (((buildTaskTree ts none).map TaskTree.task).map (fun t => t.sortOrder)).Pairwise
      (· ≤ ·) ∧
    (∀ nd : TaskTree, InForest nd (buildTaskTree ts none) →
      nd.task ∈ ts ∧
      nd.children.map TaskTree.task =
        List.insertionSort taskLE (ts.filter (fun t => t.parentTaskId == some nd.task.id)) ∧
      (∀ k : Int, (nd.children.map TaskTree.task).filter (fun t => t.sortOrder == k) =
        ts.filter (fun t => t.parentTaskId == some nd.task.id && t.sortOrder == k)) ∧
      ((nd.children.map TaskTree.task).map (fun t => t.sortOrder)).Pairwise (· ≤ ·)) ∧
    (∀ u ∈ ts, ∀ pp, u.parentTaskId = some pp → (∀ w ∈ ts, w.id ≠ pp) →
      ∀ nd : TaskTree, InForest nd (buildTaskTree ts none) → nd.task ≠ u) := by
  have inj := inj_of_nodup_ids ts hnodup
  have hb : ∀ c, DownChain ts none c → c.length < ts.length + 1 := by
    intro c hc
    have := chain_from_none_le ts inj hup c hc
    omega
  have hroots : (buildTaskTree ts none).map TaskTree.task =
      List.insertionSort taskLE (ts.filter (fun t => t.parentTaskId == none)) := by
    unfold buildTaskTree
    rw [buildTaskTreeFuel, List.map_map]
    have hcomp : (TaskTree.task ∘ fun task =>
        TaskTree.node task (buildTaskTreeFuel ts.length ts (some task.id))) = id := rfl
    rw [hcomp, List.map_id]
  refine ⟨rfl, hroots, ?_, ?_, ?_, ?_⟩
  · intro k
    rw [hroots, insertionSort_filter_key, List.filter_filter]
    refine List.filter_congr ?_
    intro x _
    rw [Bool.and_comm]
  · rw [hroots]
    exact insertionSort_sortOrder_pairwise _
  · intro nd hnd
    have hch := buildFuel_children ts (ts.length + 1) none hb nd hnd
    refine ⟨buildFuel_task_mem ts (ts.length + 1) none nd hnd, hch, ?_, ?_⟩
    · intro k
      rw [hch, insertionSort_filter_key, List.filter_filter]
      refine List.filter_congr ?_
      intro x _
      rw [Bool.and_comm]
    · rw [hch]
      exact insertionSort_sortOrder_pairwise _
  · intro u hu pp hupar hnom nd hnd heq
    rcases buildFuel_parent ts (ts.length + 1) none nd hnd with h | ⟨w, hw, hwid⟩
    · rw [heq, hupar] at h
      cases h
    · rw [heq, hupar] at hwid
      have : w.id = pp := by
        have := hwid.symm
        simpa using this
      exact hnom w hw this

/-- Witness for C7: the fixture forest sorts the two roots, lists `"r1"`'s
children in `sortOrder` order, and excludes the orphan. -/
theorem buildTaskTree_spec_witness :
    (buildTaskTree fxForestTasks none).map TaskTree.task =
      [mkTask "r1" "p1" none 0 "pending" 0, mkTask "r2" "p1" none 0 "pending" 1] ∧
    fxNodeR1.children.map TaskTree.task =
      [mkTask "c2" "p1" (some "r1") 40 "in-progress" 0,
       mkTask "c1" "p1" (some "r1") 20 "in-progress" 1] ∧
    fxNodeR1.task ≠ mkTask "orph" "p1" (some "ghost") 0 "pending" 0 := by
  have h := buildTaskTree_spec fxForestTasks (by decide) (by decide)
  have hmem : InForest fxNodeR1 (buildTaskTree fxForestTasks none) :=
    InForest.here (List.mem_cons_self _ _)
  refine ⟨h.2.1, ?_, ?_⟩
  · exact (h.2.2.2.2.1 fxNodeR1 hmem).2.1
  · exact h.2.2.2.2.2 (mkTask "orph" "p1" (some "ghost") 0 "pending" 0) (by decide)
      "ghost" rfl (by decide) fxNodeR1 hmem

/-! ### C8: subtree deletion -/

theorem DownChain_mem (ts : List TaskRow) :
    ∀ (c : List TaskRow) (pid : Option String), DownChain ts pid c → ∀ w ∈ c, w ∈ ts := by
  intro c
  induction c with
  | nil => intro pid _ w hw; simp at hw
  | cons t c ih =>
    intro pid hch w hw
    obtain ⟨ht, -, hch'⟩ := hch
    rcases List.mem_cons.mp hw with rfl | hw
    · exact ht
    · exact ih (some t.id) hch' w hw

theorem DownChain_subset {ts' ts : List TaskRow} (hsub : ∀ y ∈ ts', y ∈ ts) :
    ∀ (c : List TaskRow) (pid : Option String), DownChain ts' pid c → DownChain ts pid c := by
  intro c
  induction c with
  | nil => intro pid _; trivial
  | cons t c ih =>
    intro pid hch
    obtain ⟨ht, hp, hch'⟩ := hch
    exact ⟨hsub t ht, hp, ih (some t.id) hch'⟩

theorem DownChain_mem_of {ts ts' : List TaskRow} :
    ∀ (c : List TaskRow) (pid : Option String), DownChain ts pid c →
      (∀ w ∈ c, w ∈ ts') → DownChain ts' pid c := by
  intro c
  induction c with
  | nil => intro pid _ _; trivial
  | cons t c ih =>
    intro pid hch hall
    obtain ⟨-, hp, hch'⟩ := hch
    exact ⟨hall t (List.mem_cons_self _ _), hp,
      ih (some t.id) hch' (fun w hw => hall w (List.mem_cons_of_mem _ hw))⟩

theorem chainRef_append (pid : Option String) (c d : List TaskRow) :
    chainRef pid (c ++ d) = chainRef (chainRef pid c) d := by
  induction c generalizing pid with
  | nil => rfl
  | cons t c ih => exact ih (some t.id)

theorem descB_iff_chain (ts : List TaskRow) : ∀ (f : Nat) (id : String) (t : TaskRow),
    descB ts f id t = true ↔
    ∃ ws, DownChain ts (some id) ws ∧ ws.length ≤ f ∧
      chainRef (some id) ws = some t.id := by
  intro f
  induction f with
  | zero =>
    intro id t
    rw [descB]
    constructor
    · intro h
      have hid : t.id = id := by simpa using h
      exact ⟨[], trivial, by simp, by rw [hid]; exact rfl⟩
    · rintro ⟨ws, hch, hlen, href⟩
      have hnil : ws = [] := List.eq_nil_of_length_eq_zero (by omega)
      subst hnil
      have : id = t.id := by simpa [chainRef] using href
      simp [this]
  | succ f ih =>
    intro id t
    rw [descB]
    constructor
    · intro h
      simp only [Bool.or_eq_true] at h
      rcases h with h | h
      · have hid : t.id = id := by simpa using h
        exact ⟨[], trivial, by simp, by rw [hid]; exact rfl⟩
      · simp only [List.any_eq_true, Bool.and_eq_true] at h
        obtain ⟨c, hc, hcp, hcd⟩ := h
        obtain ⟨ws, hch, hlen, href⟩ := (ih c.id t).mp hcd
        refine ⟨c :: ws, ⟨hc, by simpa using hcp, hch⟩, by simp; omega, href⟩
    · rintro ⟨ws, hch, hlen, href⟩
      simp only [Bool.or_eq_true]
      cases ws with
      | nil =>
        refine Or.inl ?_
        have : id = t.id := by simpa [chainRef] using href
        simp [this]
      | cons c ws' =>
        obtain ⟨hc, hcp, hch'⟩ := hch
        refine Or.inr ?_
        simp only [List.any_eq_true, Bool.and_eq_true]
        refine ⟨c, hc, by simp [hcp], (ih c.id t).mpr ⟨ws', hch', ?_, href⟩⟩
        simp at hlen
        omega

theorem descB_subset {ts' ts : List TaskRow} (hsub : ∀ y ∈ ts', y ∈ ts) :
    ∀ (f : Nat) (id : String) (t : TaskRow),
      descB ts' f id t = true → descB ts f id t = true := by
  intro f
  induction f with
  | zero => intro id t h; rw [descB] at h ⊢; exact h
  | succ f ih =>
    intro id t h
    rw [descB] at h ⊢
    simp only [Bool.or_eq_true] at h ⊢
    rcases h with h | h
    · exact Or.inl h
    · simp only [List.any_eq_true, Bool.and_eq_true] at h ⊢
      obtain ⟨c, hc, hcp, hcd⟩ := h
      exact Or.inr ⟨c, hsub c hc, hcp, ih c.id t hcd⟩

theorem sublist_eq_of_mem_iff {α : Type} :
    ∀ (l l₁ l₂ : List α), l.Nodup → List.Sublist l₁ l → List.Sublist l₂ l →
      (∀ a, a ∈ l₁ ↔ a ∈ l₂) → l₁ = l₂ := by
  intro l
  induction l with
  | nil =>
    intro l₁ l₂ _ h1 h2 _
    rw [List.sublist_nil.mp h1, List.sublist_nil.mp h2]
  | cons a l ih =>
    intro l₁ l₂ hnd h1 h2 hiff
    have hal : a ∉ l := (List.nodup_cons.mp hnd).1
    have hndl : l.Nodup := (List.nodup_cons.mp hnd).2
    rcases List.sublist_cons_iff.mp h1 with h1' | ⟨r₁, rfl, hr₁⟩
    · have ha1 : a ∉ l₁ := fun hmem => hal (h1'.subset hmem)
      have ha2 : a ∉ l₂ := fun hmem => ha1 ((hiff a).mpr hmem)
      rcases List.sublist_cons_iff.mp h2 with h2' | ⟨r₂, rfl, hr₂⟩
      · exact ih l₁ l₂ hndl h1' h2' hiff
      · exact absurd (List.mem_cons_self a r₂) ha2
    · have ha1 : a ∈ a :: r₁ := List.mem_cons_self a r₁
      have ha2 : a ∈ l₂ := (hiff a).mp ha1
      rcases List.sublist_cons_iff.mp h2 with h2' | ⟨r₂, rfl, hr₂⟩
      · exact absurd (h2'.subset ha2) hal
      · have har₁ : a ∉ r₁ := fun hmem => hal (hr₁.subset hmem)
        have har₂ : a ∉ r₂ := fun hmem => hal (hr₂.subset hmem)
        have : r₁ = r₂ := by
          refine ih r₁ r₂ hndl hr₁ hr₂ ?_
          intro x
          constructor
          · intro hx
            have hx2 : x ∈ a :: r₂ := (hiff x).mp (List.mem_cons_of_mem _ hx)
            rcases List.mem_cons.mp hx2 with rfl | hx2
            · exact absurd hx har₁
            · exact hx2
          · intro hx
            have hx1 : x ∈ a :: r₁ := (hiff x).mpr (List.mem_cons_of_mem _ hx)
            rcases List.mem_cons.mp hx1 with rfl | hx1
            · exact absurd hx har₂
            · exact hx1
        rw [this]

theorem deleteTaskFuel_shape : ∀ (fuel : Nat) (s : Store) (id : String),
    List.Sublist (deleteTaskFuel fuel s id).tasks s.tasks ∧
    (deleteTaskFuel fuel s id).projects = s.projects ∧
    (deleteTaskFuel fuel s id).projWrites = s.projWrites ∧
    (deleteTaskFuel fuel s id).nextId = s.nextId := by
  intro fuel
  induction fuel with
  | zero => intro s id; exact ⟨List.Sublist.refl _, rfl, rfl, rfl⟩
  | succ f ih =>
    intro s id
    have hfold : ∀ (l : List TaskRow) (acc : Store),
        List.Sublist ((l.foldl (fun a c => deleteTaskFuel f a c.id) acc)).tasks acc.tasks ∧
        (l.foldl (fun a c => deleteTaskFuel f a c.id) acc).projects = acc.projects ∧
        (l.foldl (fun a c => deleteTaskFuel f a c.id) acc).projWrites = acc.projWrites ∧
        (l.foldl (fun a c => deleteTaskFuel f a c.id) acc).nextId = acc.nextId := by
      intro l
      induction l with
      | nil => intro acc; exact ⟨List.Sublist.refl _, rfl, rfl, rfl⟩
      | cons c l ihl =>
        intro acc
        have h1 := ih acc c.id
        have h2 := ihl (deleteTaskFuel f acc c.id)
        exact ⟨h2.1.trans h1.1, h2.2.1.trans h1.2.1, h2.2.2.1.trans h1.2.2.1,
          h2.2.2.2.trans h1.2.2.2⟩
    rw [deleteTaskFuel]
    dsimp only
    have h := hfold (s.tasks.filter (fun t => t.parentTaskId == some id)) s
    exact ⟨(List.filter_sublist _).trans h.1, h.2.1, h.2.2.1, h.2.2.2⟩

theorem deleteFuel_mem : ∀ (fuel : Nat) (s : Store) (tid : String),
    (∀ c, DownChain s.tasks (some tid) c → c.length < fuel) →
    ∀ t, t ∈ (deleteTaskFuel fuel s tid).tasks ↔
      (t ∈ s.tasks ∧ descB s.tasks fuel tid t = false) := by
  intro fuel
  induction fuel with
  | zero =>
    intro s tid hb t
    exact absurd (hb [] trivial) (by omega)
  | succ f ih =>
    intro s tid hb t
    have hfold : ∀ (todo done : List TaskRow) (acc : Store),
        (∀ c ∈ done, c ∈ s.tasks ∧ c.parentTaskId = some tid) →
        (∀ c ∈ todo, c ∈ s.tasks ∧ c.parentTaskId = some tid) →
        (∀ x, x ∈ acc.tasks ↔
          (x ∈ s.tasks ∧ ∀ c ∈ done, descB s.tasks f c.id x = false)) →
        ∀ x, x ∈ (todo.foldl (fun a c => deleteTaskFuel f a c.id) acc).tasks ↔
          (x ∈ s.tasks ∧ ∀ c ∈ done ++ todo, descB s.tasks f c.id x = false) := by
      intro todo
      induction todo with
      | nil =>
        intro done acc _ _ hacc x
        simpa using hacc x
      | cons c₀ todo ihtodo =>
        intro done acc hdone htodo hacc x
        simp only [List.foldl_cons]
        have hc₀ := htodo c₀ (List.mem_cons_self _ _)
        have hacc_sub : ∀ y ∈ acc.tasks, y ∈ s.tasks := fun y hy => ((hacc y).mp hy).1
        have hbc : ∀ cc, DownChain acc.tasks (some c₀.id) cc → cc.length < f := by
          intro cc hcc
          have hcc' : DownChain s.tasks (some c₀.id) cc := DownChain_subset hacc_sub cc _ hcc
          have hfull : DownChain s.tasks (some tid) (c₀ :: cc) := ⟨hc₀.1, hc₀.2, hcc'⟩
          have := hb _ hfull
          simp only [List.length_cons] at this
          omega
        have hstep := ih acc c₀.id hbc
        have hacc' : ∀ y, y ∈ (deleteTaskFuel f acc c₀.id).tasks ↔
            (y ∈ s.tasks ∧ ∀ c ∈ done ++ [c₀], descB s.tasks f c.id y = false) := by
          intro y
          rw [hstep y]
          constructor
          · rintro ⟨hyacc, hnd⟩
            have hys := (hacc y).mp hyacc
            refine ⟨hys.1, ?_⟩
            intro c hcmem
            rcases List.mem_append.mp hcmem with hcd | hcc
            · exact hys.2 c hcd
            · have hceq : c = c₀ := by simpa using hcc
              subst hceq
              cases hde : descB s.tasks f c.id y with
              | false => rfl
              | true =>
                exfalso
                obtain ⟨ws, hch, hlen, href⟩ := (descB_iff_chain s.tasks f c.id y).mp hde
                by_cases hall : ∀ w ∈ ws, w ∈ acc.tasks
                · have hch_acc : DownChain acc.tasks (some c.id) ws :=
                    DownChain_mem_of ws _ hch hall
                  have hdacc : descB acc.tasks f c.id y = true :=
                    (descB_iff_chain acc.tasks f c.id y).mpr ⟨ws, hch_acc, hlen, href⟩
                  rw [hdacc] at hnd
                  cases hnd
                · push_neg at hall
                  obtain ⟨w, hwws, hwnacc⟩ := hall
                  have hw_s : w ∈ s.tasks := DownChain_mem s.tasks ws _ hch w hwws
                  have hex : ∃ c' ∈ done, descB s.tasks f c'.id w = true := by
                    by_contra hno
                    push_neg at hno
                    refine hwnacc ((hacc w).mpr ⟨hw_s, ?_⟩)
                    intro c' hc'
                    have hne := hno c' hc'
                    cases hde' : descB s.tasks f c'.id w with
                    | false => rfl
                    | true => exact absurd hde' hne
                  obtain ⟨c', hc'done, hc'desc⟩ := hex
                  obtain ⟨ws₁, ws₂, rfl⟩ := List.append_of_mem hwws
                  have hsplit := (DownChain_append s.tasks (some c.id) ws₁ (w :: ws₂)).mp hch
                  have htail : w ∈ s.tasks ∧
                      w.parentTaskId = chainRef (some c.id) ws₁ ∧
                      DownChain s.tasks (some w.id) ws₂ := hsplit.2
                  have hws₂ := htail.2.2
                  obtain ⟨ws', hch', hlen', href'⟩ :=
                    (descB_iff_chain s.tasks f c'.id w).mp hc'desc
                  have hcomb : DownChain s.tasks (some c'.id) (ws' ++ ws₂) := by
                    rw [DownChain_append]
                    refine ⟨hch', ?_⟩
                    rw [href']
                    exact hws₂
                  have hcombref : chainRef (some c'.id) (ws' ++ ws₂) = some y.id := by
                    rw [chainRef_append, href']
                    have htmp := href
                    rw [chainRef_append (some c.id) ws₁ (w :: ws₂)] at htmp
                    simpa [chainRef] using htmp
                  have hfull : DownChain s.tasks (some tid) (c' :: (ws' ++ ws₂)) :=
                    ⟨(hdone c' hc'done).1, (hdone c' hc'done).2, hcomb⟩
                  have hblen := hb _ hfull
                  simp only [List.length_cons, List.length_append] at hblen
                  have hdesc' : descB s.tasks f c'.id y = true :=
                    (descB_iff_chain s.tasks f c'.id y).mpr
                      ⟨ws' ++ ws₂, hcomb, by simp; omega, hcombref⟩
                  have hcontra := hys.2 c' hc'done
                  rw [hdesc'] at hcontra
                  cases hcontra
          · rintro ⟨hys, hall⟩
            have hyacc : y ∈ acc.tasks :=
              (hacc y).mpr ⟨hys, fun c hc => hall c (List.mem_append.mpr (Or.inl hc))⟩
            refine ⟨hyacc, ?_⟩
            have hfalse : descB s.tasks f c₀.id y = false :=
              hall c₀ (List.mem_append.mpr (Or.inr (List.mem_cons_self _ _)))
            cases hde : descB acc.tasks f c₀.id y with
            | false => rfl
            | true =>
              have := descB_subset hacc_sub f c₀.id y hde
              rw [this] at hfalse
              cases hfalse
        have hres := ihtodo (done ++ [c₀]) (deleteTaskFuel f acc c₀.id)
          (by
            intro c hcm
            rcases List.mem_append.mp hcm with h | h
            · exact hdone c h
            · have hceq : c = c₀ := by simpa using h
              subst hceq
              exact hc₀)
          (fun c hcm => htodo c (List.mem_cons_of_mem _ hcm))
          hacc' x
        rw [hres]
        constructor
        · rintro ⟨h1, h2⟩
          refine ⟨h1, ?_⟩
          intro c hc
          apply h2
          simpa [List.append_assoc] using hc
        · rintro ⟨h1, h2⟩
          refine ⟨h1, ?_⟩
          intro c hc
          apply h2
          simpa [List.append_assoc] using hc
    rw [deleteTaskFuel]
    dsimp only
    rw [List.mem_filter]
    have hmain := hfold (s.tasks.filter (fun x => x.parentTaskId == some tid)) [] s
      (by intro c hc; simp at hc)
      (by
        intro c hc
        have hcf := List.mem_filter.mp hc
        exact ⟨hcf.1, by simpa using hcf.2⟩)
      (by intro x; simp)
      t
    rw [hmain, descB]
    constructor
    · rintro ⟨⟨hts, hall⟩, hneq⟩
      refine ⟨hts, ?_⟩
      have h1 : (t.id == tid) = false := by
        cases h : (t.id == tid) with
        | false => rfl
        | true => rw [h] at hneq; cases hneq
      have h2 : (s.tasks.any fun c => c.parentTaskId == some tid && descB s.tasks f c.id t)
          = false := by
        cases h : (s.tasks.any fun c => c.parentTaskId == some tid && descB s.tasks f c.id t) with
        | false => rfl
        | true =>
          exfalso
          simp only [List.any_eq_true, Bool.and_eq_true] at h
          obtain ⟨c, hc, hcp, hcd⟩ := h
          have hcf : c ∈ s.tasks.filter (fun x => x.parentTaskId == some tid) :=
            List.mem_filter.mpr ⟨hc, hcp⟩
          have hcc := hall c (by simpa using hcf)
          rw [hcd] at hcc
          cases hcc
      rw [h1, h2]
      rfl
    · rintro ⟨hts, hfalse⟩
      have h1 : (t.id == tid) = false := by
        cases h : (t.id == tid) with
        | false => rfl
        | true => rw [h] at hfalse; simp at hfalse
      have h2 : (s.tasks.any fun c => c.parentTaskId == some tid && descB s.tasks f c.id t)
          = false := by
        cases h : (s.tasks.any fun c => c.parentTaskId == some tid && descB s.tasks f c.id t) with
        | false => rfl
        | true => rw [h] at hfalse; simp at hfalse
      refine ⟨⟨hts, ?_⟩, by rw [h1]; rfl⟩
      intro c hcm
      have hcf := List.mem_filter.mp (by simpa using hcm : c ∈ s.tasks.filter
        (fun x => x.parentTaskId == some tid))
      cases hde : descB s.tasks f c.id t with
      | false => rfl
      | true =>
        exfalso
        have hany : (s.tasks.any fun c => c.parentTaskId == some tid && descB s.tasks f c.id t)
            = true := by
          simp only [List.any_eq_true, Bool.and_eq_true]
          exact ⟨c, hcf.1, hcf.2, hde⟩
        rw [hany] at h2
        cases h2

/-- **C8.** For every task id, `deleteTask` removes that task together with
every descendant task (recursing into direct children before removing the
node itself) and removes no other task: the resulting task list is exactly
the original with the deletion subtree (`descB`) filtered out, projects and
the project write log are untouched, and a task with no children is deleted
alone.  Hypotheses: task ids are pairwise distinct and every upward parent
walk terminates (on cyclic parent data the source recursion diverges). -/
theorem deleteTask_spec (s : Store) (tid : String)
    (hnodup : (s.tasks.map TaskRow.id).Nodup)
    (hup : ∀ t ∈ s.tasks, upFuel s.tasks.length s.tasks t.id = true) :
    (deleteTask s tid).tasks =
      s.tasks.filter (fun t => !(descB s.tasks (s.tasks.length + 1) tid t)) ∧
    (deleteTask s tid).projects = s.projects ∧
    (deleteTask s tid).projWrites = s.projWrites ∧
    (s.tasks.filter (fun t => t.parentTaskId == some tid) = [] →
      (deleteTask s tid).tasks = s.tasks.filter (fun t => !(t.id == tid))) := by
  have inj := inj_of_nodup_ids s.tasks hnodup
  have hrows : s.tasks.Nodup := hnodup.of_map
  have hb : ∀ c, DownChain s.tasks (some tid) c → c.length < s.tasks.length + 1 := by
    intro c hc
    have := chain_from_some_le s.tasks tid inj hup c hc
    omega
  have hmem := deleteFuel_mem (s.tasks.length + 1) s tid hb
  have hshape := deleteTaskFuel_shape (s.tasks.length + 1) s tid
  have hmain : (deleteTask s tid).tasks =
      s.tasks.filter (fun t => !(descB s.tasks (s.tasks.length + 1) tid t)) := by
    unfold deleteTask
    refine sublist_eq_of_mem_iff s.tasks _ _ hrows hshape.1 (List.filter_sublist _) ?_
    intro a
    rw [hmem a, List.mem_filter]
    constructor
    · rintro ⟨h1, h2⟩
      exact ⟨h1, by rw [h2]; rfl⟩
    · rintro ⟨h1, h2⟩
      refine ⟨h1, ?_⟩
      cases hd : descB s.tasks (s.tasks.length + 1) tid a with
      | false => rfl
      | true => rw [hd] at h2; cases h2
  refine ⟨hmain, hshape.2.1, hshape.2.2.1, ?_⟩
  intro hchild
  rw [hmain]
  refine List.filter_congr ?_
  intro a ha
  have hnoc : ∀ c ∈ s.tasks, (c.parentTaskId == some tid) = false := by
    intro c hc
    have := List.filter_eq_nil_iff.mp hchild c hc
    cases h : (c.parentTaskId == some tid) with
    | false => rfl
    | true => exact absurd h this
  have hany : (s.tasks.any fun c =>
      c.parentTaskId == some tid &&
        descB s.tasks s.tasks.length c.id a) = false := by
    rw [List.any_eq_false]
    intro c hc
    rw [hnoc c hc]
    simp
  rw [descB, hany]
  rw [Bool.or_false]

/-- Witness for C8 on the six-task fixture: deleting root `A` removes the
whole subtree `A,B,C,D,E` and keeps `Z`; deleting the childless root `Z`
removes `Z` alone. -/
theorem deleteTask_spec_witness :
    (fxDelStore.tasks.map TaskRow.id).Nodup ∧
    (∀ t ∈ fxDelStore.tasks,
      upFuel fxDelStore.tasks.length fxDelStore.tasks t.id = true) ∧
    (deleteTask fxDelStore "A").tasks =
      fxDelStore.tasks.filter
        (fun t => !(descB fxDelStore.tasks (fxDelStore.tasks.length + 1) "A" t)) ∧
    (deleteTask fxDelStore "Z").tasks =
      fxDelStore.tasks.filter (fun t => !(t.id == "Z")) :=
  ⟨by decide, by decide,
   (deleteTask_spec fxDelStore "A" (by decide) (by decide)).1,
   (deleteTask_spec fxDelStore "Z" (by decide) (by decide)).2.2.2 (by decide)⟩
